import Mathlib

/-!
Verification of the armake2 toolkit against its specification.

Each section embeds one part of the Rust source (src/io.rs, src/config.rs,
src/pbo.rs, src/sign.rs, src/preprocess.rs) as executable Lean definitions
and proves or refutes the spec claims about it.  Machine integers are
modelled as `Nat` with explicit truncation (`% 2^32`) where the Rust code
can overflow; byte strings are `List Nat`; fallible operations return
`Option`.
-/

namespace Armake

/-! ## Bit-level helper lemmas

Bridging lemmas between the bitwise operators appearing in the Rust source
(`&`, `|`, `<<`, `>>`) and ordinary arithmetic on `Nat`. -/

theorem and_127_eq_mod (x : Nat) : x &&& 127 = x % 128 := by
  apply Nat.eq_of_testBit_eq
  intro i
  rw [Nat.testBit_and, show (127 : Nat) = 2 ^ 7 - 1 from rfl,
    Nat.testBit_two_pow_sub_one, show (128 : Nat) = 2 ^ 7 from rfl,
    Nat.testBit_mod_two_pow, Bool.and_comm]

theorem mask_shift_eq_div (x : Nat) (h : x < 2 ^ 32) :
    (x &&& 0xffffff80) >>> 7 = x / 128 := by
  apply Nat.eq_of_testBit_eq
  intro i
  rw [Nat.testBit_shiftRight, Nat.testBit_and,
    show (0xffffff80 : Nat) = (2 ^ 25 - 1) <<< 7 from by decide,
    Nat.testBit_shiftLeft, Nat.testBit_two_pow_sub_one,
    show x / 128 = x >>> 7 from (Nat.shiftRight_eq_div_pow x 7).symm,
    Nat.testBit_shiftRight]
  by_cases hi : i < 25
  · simp [Nat.add_sub_cancel_left, hi]
  · have hx32 : x.testBit (7 + i) = false := by
      apply Nat.testBit_lt_two_pow
      exact lt_of_lt_of_le h (Nat.pow_le_pow_right (by norm_num) (by omega))
    simp [hx32]

theorem or_chunk (x k : Nat) :
    ((x % 128) <<< k) ||| ((x / 128) <<< (k + 7)) = x <<< k := by
  apply Nat.eq_of_testBit_eq
  intro i
  rw [Nat.testBit_or, Nat.testBit_shiftLeft, Nat.testBit_shiftLeft,
    Nat.testBit_shiftLeft, show (128 : Nat) = 2 ^ 7 from rfl,
    Nat.testBit_mod_two_pow,
    show x / 2 ^ 7 = x >>> 7 from (Nat.shiftRight_eq_div_pow x 7).symm,
    Nat.testBit_shiftRight]
  rcases lt_or_ge i k with hik | hik
  · have h1 : ¬ (i ≥ k) := by omega
    have h2 : ¬ (i ≥ k + 7) := by omega
    simp [h1, h2]
  · rcases lt_or_ge i (k + 7) with hik7 | hik7
    · have h1 : i ≥ k := hik
      have h2 : ¬ (i ≥ k + 7) := by omega
      have h3 : i - k < 7 := by omega
      simp [h1, h2, h3]
    · have h1 : i ≥ k := hik
      have h3 : ¬ (i - k < 7) := by omega
      have h4 : 7 + (i - (k + 7)) = i - k := by omega
      simp [h1, hik7, h3, h4]

theorem or_128_facts : ∀ r : Fin 128,
    ((0x80 ||| r.val) &&& 127 = r.val) ∧ (0x80 ≤ 0x80 ||| r.val) := by decide

/-! ## src/io.rs: 7-bit compressed integers

Embeds `write_compressed_int`, `read_compressed_int` and
`compressed_int_len` from src/io.rs.  The Rust accumulator is a `u32`, so
the read accumulation truncates with `% 2^32`. -/

/-- Embedding of `WriteExt::write_compressed_int` (src/io.rs lines 98-111):
loop emitting `0x80 | (temp & 0x7f)` while `temp > 0x7f`, with
`temp &= !0x7f; temp >>= 7` between iterations, then the final byte. -/
def write_compressed_int (x : Nat) : List Nat :=
  if 0x7f < x then
    (0x80 ||| (x &&& 0x7f)) :: write_compressed_int ((x &&& 0xffffff80) >>> 7)
  else
    [x]
termination_by x
decreasing_by
  rw [Nat.shiftRight_eq_div_pow]
  calc (x &&& 0xffffff80) / 2 ^ 7 ≤ x / 2 ^ 7 :=
        Nat.div_le_div_right Nat.and_le_left
    _ < x := Nat.div_lt_self (by omega) (by norm_num)

/-- Embedding of `compressed_int_len` (src/io.rs lines 114-125). -/
def compressed_int_len (x : Nat) : Nat :=
  if 0x7f < x then
    compressed_int_len ((x &&& 0xffffff80) >>> 7) + 1
  else
    1
termination_by x
decreasing_by
  rw [Nat.shiftRight_eq_div_pow]
  calc (x &&& 0xffffff80) / 2 ^ 7 ≤ x / 2 ^ 7 :=
        Nat.div_le_div_right Nat.and_le_left
    _ < x := Nat.div_lt_self (by omega) (by norm_num)

/-- Loop of `ReadExt::read_compressed_int` (src/io.rs lines 70-83):
`result |= (b & 0x7f) << (i * 7)` on a `u32` accumulator (hence the
`% 2^32` truncation), stopping at the first byte `< 0x80` or at end of
input. -/
def read_compressed_int_go : List Nat → Nat → Nat → Nat
  | [], _, acc => acc
  | b :: rest, i, acc =>
    let acc2 := (acc ||| (((b &&& 0x7f) <<< (i * 7)) % 2 ^ 32)) % 2 ^ 32
    if b < 0x80 then acc2 else read_compressed_int_go rest (i + 1) acc2

/-- Embedding of `ReadExt::read_compressed_int` (src/io.rs lines 70-83). -/
def read_compressed_int (bs : List Nat) : Nat :=
  read_compressed_int_go bs 0 0

theorem write_compressed_int_read (x i acc : Nat)
    (hx : x < 2 ^ (32 - 7 * i)) (hacc : acc < 2 ^ (7 * i)) (hi : i ≤ 4) :
    read_compressed_int_go (write_compressed_int x) i acc =
      acc ||| (x <<< (i * 7)) := by
  induction x using Nat.strong_induction_on generalizing i acc with
  | _ x ih =>
    rw [write_compressed_int]
    by_cases h : 0x7f < x
    · have hi3 : i ≤ 3 := by
        by_contra hc
        have : i = 4 := by omega
        subst this
        have : x < 2 ^ 4 := by simpa using hx
        omega
      have hx32 : x < 2 ^ 32 := lt_of_lt_of_le hx
        (Nat.pow_le_pow_right (by norm_num) (by omega))
      have hmod : x % 128 < 128 := Nat.mod_lt _ (by norm_num)
      have hband : (0x80 ||| (x % 128)) &&& 127 = x % 128 := by
        simpa using (or_128_facts ⟨x % 128, hmod⟩).1
      have hble : 0x80 ≤ 0x80 ||| (x % 128) := by
        simpa using (or_128_facts ⟨x % 128, hmod⟩).2
      simp only [if_pos h, read_compressed_int_go]
      rw [and_127_eq_mod x]
      have hb : ¬ ((0x80 ||| (x % 128)) < 0x80) := by omega
      simp only [if_neg hb]
      -- the accumulated value is below 2^32, so both `% 2^32` vanish
      have hshl : (x % 128) <<< (i * 7) < 2 ^ 32 := by
        rw [Nat.shiftLeft_eq]
        calc (x % 128) * 2 ^ (i * 7) < 2 ^ (32 - 7 * i) * 2 ^ (i * 7) :=
              mul_lt_mul_of_pos_right (lt_of_le_of_lt (Nat.mod_le x 128) hx)
                (Nat.pos_pow_of_pos _ (by norm_num))
          _ = 2 ^ 32 := by
              rw [← pow_add]
              congr 1
              omega
      have hacc32 : acc < 2 ^ 32 := lt_of_lt_of_le hacc
        (Nat.pow_le_pow_right (by norm_num) (by omega))
      have hor32 : acc ||| ((x % 128) <<< (i * 7)) < 2 ^ 32 :=
        Nat.or_lt_two_pow hacc32 hshl
      rw [hband, Nat.mod_eq_of_lt hshl, Nat.mod_eq_of_lt hor32,
        mask_shift_eq_div x hx32]
      have hdivlt : x / 128 < x := Nat.div_lt_self (by omega) (by norm_num)
      have hx' : x / 128 < 2 ^ (32 - 7 * (i + 1)) := by
        rw [Nat.div_lt_iff_lt_mul (by norm_num : (0:Nat) < 128)]
        calc x < 2 ^ (32 - 7 * i) := hx
          _ = 2 ^ (32 - 7 * (i + 1)) * 128 := by
            rw [show (128 : Nat) = 2 ^ 7 from rfl, ← pow_add]
            congr 1
            omega
      have hacc' : acc ||| ((x % 128) <<< (i * 7)) < 2 ^ (7 * (i + 1)) := by
        apply Nat.or_lt_two_pow
        · exact lt_of_lt_of_le hacc (Nat.pow_le_pow_right (by norm_num) (by omega))
        · rw [Nat.shiftLeft_eq]
          calc (x % 128) * 2 ^ (i * 7) < 128 * 2 ^ (i * 7) :=
                mul_lt_mul_of_pos_right hmod (Nat.pos_pow_of_pos _ (by norm_num))
            _ = 2 ^ (7 * (i + 1)) := by
                rw [show (128 : Nat) = 2 ^ 7 from rfl, ← pow_add]
                congr 1
                omega
      rw [ih (x / 128) hdivlt (i + 1) (acc ||| ((x % 128) <<< (i * 7)))
        hx' hacc' (by omega)]
      rw [Nat.or_assoc]
      congr 1
      rw [show (i + 1) * 7 = i * 7 + 7 by ring]
      exact or_chunk x (i * 7)
    · have hxlt : x < 0x80 := by omega
      simp only [if_neg h, read_compressed_int_go]
      have hb : x < 0x80 := hxlt
      simp only [if_pos hb]
      rw [and_127_eq_mod x, Nat.mod_eq_of_lt (by omega : x < 128)]
      have hshl : x <<< (i * 7) < 2 ^ 32 := by
        rw [Nat.shiftLeft_eq]
        calc x * 2 ^ (i * 7) < 2 ^ (32 - 7 * i) * 2 ^ (i * 7) :=
              mul_lt_mul_of_pos_right hx (Nat.pos_pow_of_pos _ (by norm_num))
          _ = 2 ^ 32 := by
              rw [← pow_add]
              congr 1
              omega
      have hacc32 : acc < 2 ^ 32 := lt_of_lt_of_le hacc
        (Nat.pow_le_pow_right (by norm_num) (by omega))
      rw [Nat.mod_eq_of_lt hshl,
        Nat.mod_eq_of_lt (Nat.or_lt_two_pow hacc32 hshl)]

theorem write_compressed_int_length (x : Nat) :
    (write_compressed_int x).length = compressed_int_len x := by
  induction x using Nat.strong_induction_on with
  | _ x ih =>
    rw [write_compressed_int, compressed_int_len]
    by_cases h : 0x7f < x
    · have hdivlt : (x &&& 0xffffff80) >>> 7 < x := by
        rw [Nat.shiftRight_eq_div_pow]
        calc (x &&& 0xffffff80) / 2 ^ 7 ≤ x / 2 ^ 7 :=
              Nat.div_le_div_right Nat.and_le_left
          _ < x := Nat.div_lt_self (by omega) (by norm_num)
      simp only [if_pos h, List.length_cons]
      rw [ih _ hdivlt]
    · simp [if_neg h]

/-- C7: for every `n < 2^32`, reading back the bytes written by
`write_compressed_int n` yields `n`, and the number of bytes written equals
`compressed_int_len n`. -/
theorem varint_round_trip (n : Nat) (h : n < 2 ^ 32) :
    read_compressed_int (write_compressed_int n) = n ∧
      (write_compressed_int n).length = compressed_int_len n := by
  constructor
  · rw [read_compressed_int,
      write_compressed_int_read n 0 0 (by simpa using h) (by norm_num)
        (by norm_num)]
    simp [Nat.shiftLeft_zero]
  · exact write_compressed_int_length n

/-- C7 witness: the round trip at `n = 300` (the spec's own example,
`write_compressed_int(300) = [0xAC, 0x02]`). -/
theorem varint_round_trip_witness :
    300 < 2 ^ 32 ∧
      (read_compressed_int (write_compressed_int 300) = 300 ∧
        (write_compressed_int 300).length = compressed_int_len 300) :=
  ⟨by norm_num, varint_round_trip 300 (by norm_num)⟩

/-! ## SHA-1

Modelled from the spec: the SHA-1 digest (FIPS 180-1) provided by the
external OpenSSL `Hasher` used in src/pbo.rs and src/sign.rs.  Messages and
digests are byte lists; words are `Nat` kept below `2^32`. -/

/-- Left rotation of a 32-bit word. -/
def rotl (n x : Nat) : Nat := ((x <<< n) ||| (x >>> (32 - n))) % 2 ^ 32

/-- SHA-1 round function. -/
def sha1F (t b c d : Nat) : Nat :=
  if t < 20 then (b &&& c) ||| ((b ^^^ 0xffffffff) &&& d)
  else if t < 40 then b ^^^ c ^^^ d
  else if t < 60 then (b &&& c) ||| (b &&& d) ||| (c &&& d)
  else b ^^^ c ^^^ d

/-- SHA-1 round constants. -/
def sha1K (t : Nat) : Nat :=
  if t < 20 then 0x5a827999
  else if t < 40 then 0x6ed9eba1
  else if t < 60 then 0x8f1bbcdc
  else 0xca62c1d6

/-- Big-endian 32-bit words from bytes. -/
def bytesToWords : List Nat → List Nat
  | a :: b :: c :: d :: rest => (((a * 256 + b) * 256 + c) * 256 + d) :: bytesToWords rest
  | _ => []

/-- Big-endian bytes of a 32-bit word. -/
def wordToBytes (w : Nat) : List Nat :=
  [w / 2 ^ 24 % 256, w / 2 ^ 16 % 256, w / 2 ^ 8 % 256, w % 256]

/-- SHA-1 message padding: `0x80`, zeros to 56 mod 64, 64-bit length. -/
def sha1Pad (msg : List Nat) : List Nat :=
  let ml := msg.length * 8
  let k := (120 - (msg.length + 1) % 64) % 64
  msg ++ [0x80] ++ List.replicate k 0 ++
    [ml / 2 ^ 56 % 256, ml / 2 ^ 48 % 256, ml / 2 ^ 40 % 256, ml / 2 ^ 32 % 256,
     ml / 2 ^ 24 % 256, ml / 2 ^ 16 % 256, ml / 2 ^ 8 % 256, ml % 256]

/-- Split a word list into 16-word blocks. -/
def words16 : List Nat → List (List Nat)
  | w1 :: w2 :: w3 :: w4 :: w5 :: w6 :: w7 :: w8 ::
    w9 :: w10 :: w11 :: w12 :: w13 :: w14 :: w15 :: w16 :: rest =>
    [w1, w2, w3, w4, w5, w6, w7, w8, w9, w10, w11, w12, w13, w14, w15, w16] :: words16 rest
  | _ => []

/-- Message-schedule extension, keeping the most recent word first. -/
def sha1ExtendRev : Nat → List Nat → List Nat
  | 0, acc => acc
  | n + 1, acc =>
    sha1ExtendRev n
      ((rotl 1 ((((acc.getD 2 0) ^^^ (acc.getD 7 0)) ^^^ (acc.getD 13 0)) ^^^
        (acc.getD 15 0))) :: acc)

/-- The 80 SHA-1 rounds over the message schedule. -/
def sha1Rounds : List Nat → Nat → Nat × Nat × Nat × Nat × Nat → Nat × Nat × Nat × Nat × Nat
  | [], _, st => st
  | wt :: rest, t, (a, b, c, d, e) =>
    let temp := (rotl 5 a + sha1F t b c d + e + wt + sha1K t) % 2 ^ 32
    sha1Rounds rest (t + 1) (temp, a, rotl 30 b, c, d)

/-- Process the 16-word blocks, chaining the 160-bit state. -/
def sha1Blocks : List (List Nat) → Nat × Nat × Nat × Nat × Nat → Nat × Nat × Nat × Nat × Nat
  | [], h => h
  | block :: rest, h =>
    let sched := (sha1ExtendRev 64 block.reverse).reverse
    let (h0, h1, h2, h3, h4) := h
    let (a, b, c, d, e) := sha1Rounds sched 0 h
    sha1Blocks rest
      ((h0 + a) % 2 ^ 32, (h1 + b) % 2 ^ 32, (h2 + c) % 2 ^ 32, (h3 + d) % 2 ^ 32,
        (h4 + e) % 2 ^ 32)

/-- SHA-1 of a byte list, as the 20 digest bytes. -/
def sha1 (msg : List Nat) : List Nat :=
  let (h0, h1, h2, h3, h4) :=
    sha1Blocks (words16 (bytesToWords (sha1Pad msg)))
      (0x67452301, 0xefcdab89, 0x98badcfe, 0x10325476, 0xc3d2e1f0)
  wordToBytes h0 ++ wordToBytes h1 ++ wordToBytes h2 ++ wordToBytes h3 ++ wordToBytes h4

theorem wordToBytes_length (w : Nat) : (wordToBytes w).length = 4 := rfl

theorem sha1_length (msg : List Nat) : (sha1 msg).length = 20 := by
  rw [sha1]
  obtain ⟨h0, h1, h2, h3, h4⟩ :=
    sha1Blocks (words16 (bytesToWords (sha1Pad msg)))
      (0x67452301, 0xefcdab89, 0x98badcfe, 0x10325476, 0xc3d2e1f0)
  simp [wordToBytes]

theorem sha1_bytes_lt (msg : List Nat) : ∀ b ∈ sha1 msg, b < 256 := by
  rw [sha1]
  obtain ⟨h0, h1, h2, h3, h4⟩ :=
    sha1Blocks (words16 (bytesToWords (sha1Pad msg)))
      (0x67452301, 0xefcdab89, 0x98badcfe, 0x10325476, 0xc3d2e1f0)
  intro b hb
  simp only [wordToBytes, List.append_assoc, List.mem_append, List.mem_cons,
    List.not_mem_nil, or_false] at hb
  rcases hb with h | h | h | h | h <;> rcases h with h | h | h | h <;>
    (subst h; exact Nat.mod_lt _ (by norm_num))

/-! ## src/pbo.rs: the PBO archive writer

`Cursor<Box<[u8]>>` payloads are byte lists, the `LinkedHashMap` of files
is an ordered association list, and the `HashMap` of header extensions is
an association list iterated in list order (the source iterates it in
unspecified hash order after writing the prefix first). -/

/-- A C string: the bytes followed by the terminating zero. -/
def cstring (s : List Nat) : List Nat := s ++ [0]

/-- Little-endian bytes of a `u32` (any `Nat` is truncated mod `2^32`). -/
def le32 (n : Nat) : List Nat :=
  [n % 256, n / 2 ^ 8 % 256, n / 2 ^ 16 % 256, n / 2 ^ 24 % 256]

/-- Embedding of `PBOHeader` (src/pbo.rs lines 18-25). -/
structure PBOHeader where
  filename : List Nat
  packing_method : Nat
  original_size : Nat
  reserved : Nat
  timestamp : Nat
  data_size : Nat

/-- Embedding of `PBOHeader::write` (src/pbo.rs lines 64-72). -/
def PBOHeader.write (h : PBOHeader) : List Nat :=
  cstring h.filename ++ le32 h.packing_method ++ le32 h.original_size ++
    le32 h.reserved ++ le32 h.timestamp ++ le32 h.data_size

/-- Embedding of `PBO` (src/pbo.rs lines 43-50). -/
structure PBO where
  files : List (List Nat × List Nat)
  header_extensions : List (List Nat × List Nat)
  headers : List PBOHeader
  checksum : Option (List Nat)

/-- ASCII lowercasing of a byte, modelling `str::to_lowercase` on the
ASCII filenames the archive stores. -/
def lowerByte (b : Nat) : Nat := if 65 ≤ b ∧ b ≤ 90 then b + 32 else b

/-- Lowercase a byte string. -/
def lowerBytes (s : List Nat) : List Nat := s.map lowerByte

/-- Strict lexicographic order on byte strings (`Ord` on Rust strings). -/
def bytesLt : List Nat → List Nat → Bool
  | [], [] => false
  | [], _ :: _ => true
  | _ :: _, [] => false
  | a :: as, b :: bs => if a < b then true else if b < a then false else bytesLt as bs

/-- Stable insertion of a file into a run sorted by lowercased name,
modelling the stable `sort_by` in `PBO::write` (src/pbo.rs line 249). -/
def sortInsert (x : List Nat × List Nat) :
    List (List Nat × List Nat) → List (List Nat × List Nat)
  | [] => [x]
  | y :: ys =>
    if bytesLt (lowerBytes y.1) (lowerBytes x.1) then y :: sortInsert x ys
    else x :: y :: ys

/-- Stable sort of the file list by lowercased name. -/
def sortFiles : List (List Nat × List Nat) → List (List Nat × List Nat)
  | [] => []
  | x :: xs => sortInsert x (sortFiles xs)

/-- Association-list lookup for header extensions (`HashMap::get`). -/
def alistGet : List (List Nat × List Nat) → List Nat → Option (List Nat)
  | [], _ => none
  | (k, v) :: rest, key => if k = key then some v else alistGet rest key

/-- The bytes of the ASCII string used as the prefix extension key. -/
def pfxKey : List Nat := [112, 114, 101, 102, 105, 120]

/-- The header region assembled into the `headers` cursor by `PBO::write`
(src/pbo.rs lines 222-268): product-entry header, prefix extension first,
remaining extensions, empty-key terminator, one header per file in sorted
order, and the zero trailer header. -/
def PBO.headerRegion (pbo : PBO) : List Nat :=
  PBOHeader.write ⟨[], 0x56657273, 0, 0, 0, 0⟩ ++
    (match alistGet pbo.header_extensions pfxKey with
      | some v => pfxKey ++ [0] ++ cstring v
      | none => []) ++
    (pbo.header_extensions.filter (fun kv => kv.1 ≠ pfxKey)).foldr
      (fun kv acc => cstring kv.1 ++ cstring kv.2 ++ acc) [] ++
    cstring [] ++
    (sortFiles pbo.files).foldr
      (fun f acc =>
        PBOHeader.write ⟨f.1, 0, f.2.length, 0, 0, f.2.length⟩ ++ acc) [] ++
    PBOHeader.write ⟨[], 0, 0, 0, 0, 0⟩

/-- The concatenated file payloads in sorted order. -/
def PBO.payloadRegion (pbo : PBO) : List Nat :=
  (sortFiles pbo.files).foldr (fun f acc => f.2 ++ acc) []

/-- Embedding of `PBO::write` (src/pbo.rs lines 222-284): the header
region, the payloads, one `0x00` byte, then the SHA-1 that was updated
with the header region and the payloads only. -/
def PBO.write_bytes (pbo : PBO) : List Nat :=
  pbo.headerRegion ++ pbo.payloadRegion ++ [0] ++
    sha1 (pbo.headerRegion ++ pbo.payloadRegion)

/-- A PBO with no files and no extensions, a concrete failing input for
the checksum-region claim. -/
def emptyPBO : PBO := ⟨[], [], [], none⟩

set_option maxRecDepth 100000 in
/-- C3 counterexample: for the PBO with no files and no extensions, the
20 trailing checksum bytes do not equal the SHA-1 of everything that
precedes them (header region, payloads and the trailing `0x00`): the
writer hashes only the bytes before the trailing zero. -/
theorem pbo_checksum_includes_zero_false :
    ¬ ((PBO.write_bytes emptyPBO).drop ((PBO.write_bytes emptyPBO).length - 20) =
      sha1 ((PBO.write_bytes emptyPBO).take ((PBO.write_bytes emptyPBO).length - 20))) := by
  decide

/-- C3 amended: the 20 bytes appended at the end of `PBO::write` output
equal the SHA-1 of everything from the first header byte through the file
payloads, excluding the single `0x00` byte written just before the
checksum; that zero byte sits immediately before the checksum. -/
theorem pbo_checksum_excludes_zero (pbo : PBO) :
    (PBO.write_bytes pbo).drop ((PBO.write_bytes pbo).length - 20) =
      sha1 ((PBO.write_bytes pbo).take ((PBO.write_bytes pbo).length - 21)) ∧
    (PBO.write_bytes pbo).take ((PBO.write_bytes pbo).length - 20) =
      (PBO.write_bytes pbo).take ((PBO.write_bytes pbo).length - 21) ++ [0] := by
  have hre : PBO.write_bytes pbo =
      (pbo.headerRegion ++ pbo.payloadRegion) ++ [0] ++
        sha1 (pbo.headerRegion ++ pbo.payloadRegion) := rfl
  set R := pbo.headerRegion ++ pbo.payloadRegion with hR
  have hlen : (PBO.write_bytes pbo).length = R.length + 21 := by
    rw [hre]
    simp [sha1_length]
  refine ⟨?_, ?_⟩
  · rw [hlen, hre]
    have h1 : R.length + 21 - 20 = (R ++ [0]).length := by simp
    rw [h1, List.append_assoc R [0], ← List.append_assoc R [0],
      List.drop_left]
    have h2 : R.length + 21 - 21 = R.length := by omega
    rw [h2]
    have h3 : ((R ++ [0]) ++ sha1 R).take R.length = R := by
      rw [List.append_assoc, List.take_append_of_le_length (by simp)]
      simp
    rw [h3]
  · rw [hlen, hre]
    have h1 : R.length + 21 - 20 = (R ++ [0]).length := by simp
    have h2 : R.length + 21 - 21 = R.length := by omega
    rw [h1, h2, List.take_left]
    have h3 : ((R ++ [0]) ++ sha1 R).take R.length = R := by
      rw [List.append_assoc, List.take_append_of_le_length (by simp)]
      simp
    rw [h3]

/-! ## src/config.rs: the config AST and the rapified binary format

`f32` and `i32` payloads are carried as their 32-bit patterns (the
rapified format stores exactly those four little-endian bytes, so the
bit-pattern view is a bijective rendering of the Rust values). -/

mutual
/-- Embedding of `ConfigEntry` (src/config.rs lines 53-64). -/
inductive ConfigEntry where
  | stringEntry (s : List Nat)
  | floatEntry (bits : Nat)
  | intEntry (bits : Nat)
  | arrayEntry (a : ConfigArray)
  | classEntry (c : ConfigClass)

/-- Embedding of `ConfigArray` (src/config.rs lines 68-71). -/
inductive ConfigArray where
  | mk (is_expansion : Bool) (elements : List ConfigArrayElement)

/-- Embedding of `ConfigArrayElement` (src/config.rs lines 75-84). -/
inductive ConfigArrayElement where
  | stringElement (s : List Nat)
  | floatElement (bits : Nat)
  | intElement (bits : Nat)
  | arrayElement (a : ConfigArray)

/-- Embedding of `ConfigClass` (src/config.rs lines 44-49). -/
inductive ConfigClass where
  | mk (parent : List Nat) (is_external : Bool) (is_deletion : Bool)
      (entries : Option (List (List Nat × ConfigEntry)))
end

/-- Embedding of `Config` (src/config.rs lines 38-40). -/
structure Config where
  root_body : ConfigClass

mutual
/-- Embedding of `ConfigArrayElement::rapified_length`
(src/config.rs lines 87-95). -/
def ConfigArrayElement.rapified_length : ConfigArrayElement → Nat
  | .stringElement s => s.length + 2
  | .floatElement _ => 5
  | .intElement _ => 5
  | .arrayElement (.mk _ es) =>
    1 + compressed_int_len es.length + arrElemsLen es

/-- Sum of element lengths (`usize::sum` over the mapped iterator). -/
def arrElemsLen : List ConfigArrayElement → Nat
  | [] => 0
  | e :: rest => e.rapified_length + arrElemsLen rest
end

/-- Embedding of `ConfigEntry::rapified_length` (src/config.rs lines
183-197); the name is not included, and a class entry counts only its
inline tag/offset bytes. -/
def ConfigEntry.rapified_length : ConfigEntry → Nat
  | .stringEntry s => s.length + 3
  | .floatEntry _ => 6
  | .intEntry _ => 6
  | .arrayEntry (.mk exp es) =>
    let len := 1 + compressed_int_len es.length + arrElemsLen es
    if exp then len + 4 else len
  | .classEntry (.mk _ ext del _) => if ext || del then 1 else 5

mutual
/-- Embedding of `ConfigClass::rapified_length` (src/config.rs lines
262-274). -/
def ConfigClass.rapified_length : ConfigClass → Nat
  | .mk _ _ _ none => 0
  | .mk parent _ _ (some entries) =>
    parent.length + 1 + compressed_int_len entries.length + entriesFullLen entries

/-- The per-entry sum inside `ConfigClass::rapified_length`: name, inline
entry bytes, and for class entries the deferred class body. -/
def entriesFullLen : List (List Nat × ConfigEntry) → Nat
  | [] => 0
  | (k, v) :: rest =>
    k.length + 1 + v.rapified_length +
      (match v with
        | .classEntry c => c.rapified_length
        | _ => 0) + entriesFullLen rest
end

/-- The `entries_len` computed in `ConfigClass::write_rapified`
(src/config.rs line 286): inline bytes only, without class bodies. -/
def entriesInlineLen : List (List Nat × ConfigEntry) → Nat
  | [] => 0
  | (k, v) :: rest => k.length + 1 + v.rapified_length + entriesInlineLen rest

/-- A fixed-size `Cursor<Box<[u8]>>` buffer: the written bytes padded
with zeros to the allocated length, or `none` (a `write_all` error) if
the writes exceed the buffer. -/
def bufferize (len : Nat) (bytes : List Nat) : Option (List Nat) :=
  if bytes.length ≤ len then some (bytes ++ List.replicate (len - bytes.length) 0)
  else none

mutual
/-- Embedding of `ConfigArray::write_rapified` (src/config.rs lines
124-152). -/
def ConfigArray.write_rapified : ConfigArray → List Nat
  | .mk _ es => write_compressed_int es.length ++ arrElemsWrite es

/-- The element loop of `ConfigArray::write_rapified`. -/
def arrElemsWrite : List ConfigArrayElement → List Nat
  | [] => []
  | .stringElement s :: rest => 0 :: cstring s ++ arrElemsWrite rest
  | .floatElement bits :: rest => 1 :: le32 bits ++ arrElemsWrite rest
  | .intElement bits :: rest => 2 :: le32 bits ++ arrElemsWrite rest
  | .arrayElement (.mk exp es) :: rest =>
    3 :: (write_compressed_int es.length ++ arrElemsWrite es) ++ arrElemsWrite rest
end

mutual
/-- Embedding of `ConfigClass::write_rapified` (src/config.rs lines
276-354).  `offset` is the absolute position the body is written at; the
result is the entry bytes followed by the deferred class bodies, or
`none` where the source panics (`entries = None`, a violated
`assert_eq!`) or a child body overflows its cursor buffer. -/
def ConfigClass.write_rapified : ConfigClass → Nat → Option (List Nat)
  | .mk _ _ _ none, _ => none
  | .mk parent _ _ (some entries), offset =>
    let pre := cstring parent ++ write_compressed_int entries.length
    match entriesWrite entries (offset + pre.length + entriesInlineLen entries) with
    | none => none
    | some (inline, bodies) =>
      if inline.length = entriesInlineLen entries then some (pre ++ inline ++ bodies)
      else none

/-- The entry loop of `ConfigClass::write_rapified`, threading the
running `class_offset` and collecting inline bytes and deferred class
bodies.  Each entry's inline bytes are checked against the
`assert_eq!(written - pre_write, entry.rapified_length() + name.len() + 1)`
of the source. -/
def entriesWrite : List (List Nat × ConfigEntry) → Nat →
    Option (List Nat × List Nat)
  | [], _ => some ([], [])
  | (name, .stringEntry s) :: rest, classOffset =>
    let inline0 := 1 :: 0 :: cstring name ++ cstring s
    if inline0.length = (ConfigEntry.stringEntry s).rapified_length + name.length + 1 then
      match entriesWrite rest classOffset with
      | none => none
      | some (inline, bodies) => some (inline0 ++ inline, bodies)
    else none
  | (name, .floatEntry bits) :: rest, classOffset =>
    let inline0 := 1 :: 1 :: cstring name ++ le32 bits
    if inline0.length = (ConfigEntry.floatEntry bits).rapified_length + name.length + 1 then
      match entriesWrite rest classOffset with
      | none => none
      | some (inline, bodies) => some (inline0 ++ inline, bodies)
    else none
  | (name, .intEntry bits) :: rest, classOffset =>
    let inline0 := 1 :: 2 :: cstring name ++ le32 bits
    if inline0.length = (ConfigEntry.intEntry bits).rapified_length + name.length + 1 then
      match entriesWrite rest classOffset with
      | none => none
      | some (inline, bodies) => some (inline0 ++ inline, bodies)
    else none
  | (name, .arrayEntry (.mk exp es)) :: rest, classOffset =>
    let inline0 := (if exp then [5, 1, 0, 0, 0] else [2]) ++ cstring name ++
      (write_compressed_int es.length ++ arrElemsWrite es)
    if inline0.length = (ConfigEntry.arrayEntry (.mk exp es)).rapified_length + name.length + 1 then
      match entriesWrite rest classOffset with
      | none => none
      | some (inline, bodies) => some (inline0 ++ inline, bodies)
    else none
  | (name, .classEntry (.mk p ext del es)) :: rest, classOffset =>
    if ext || del then
      let inline0 := (if del then 4 else 3) :: cstring name
      if inline0.length =
          (ConfigEntry.classEntry (.mk p ext del es)).rapified_length + name.length + 1 then
        match entriesWrite rest classOffset with
        | none => none
        | some (inline, bodies) => some (inline0 ++ inline, bodies)
      else none
    else
      let inline0 := 0 :: cstring name ++ le32 classOffset
      if inline0.length =
          (ConfigEntry.classEntry (.mk p ext del es)).rapified_length + name.length + 1 then
        match ConfigClass.write_rapified (.mk p ext del es) classOffset with
        | none => none
        | some body =>
          match bufferize (ConfigClass.rapified_length (.mk p ext del es)) body with
          | none => none
          | some buf =>
            match entriesWrite rest (classOffset + body.length) with
            | none => none
            | some (inline, bodies) => some (inline0 ++ inline, buf ++ bodies)
      else none
end

/-- Embedding of `Config::write_rapified` (src/config.rs lines 447-465):
magic, reserved bytes, `enum_offset = 16 +` the root body buffer length,
the buffer, and the zero enum trailer. -/
def Config.write_rapified (cfg : Config) : Option (List Nat) :=
  match cfg.root_body.write_rapified 16 with
  | none => none
  | some body =>
    match bufferize cfg.root_body.rapified_length body with
    | none => none
    | some buf =>
      some ([0, 0x72, 0x61, 0x50] ++ [0, 0, 0, 0, 8, 0, 0, 0] ++
        le32 (16 + buf.length) ++ buf ++ [0, 0, 0, 0])

/-! ### Reading the rapified format back -/

/-- The loop of `ReadExt::read_cstring` (src/io.rs lines 56-68) on the
remaining bytes: the string up to the zero terminator (or end of input)
and the number of bytes consumed. -/
def read_cstring_go : List Nat → List Nat × Nat
  | [] => ([], 0)
  | b :: r =>
    if b = 0 then ([], 1)
    else
      let (s, n) := read_cstring_go r
      (b :: s, n + 1)

/-- `read_cstring` at an absolute position of a seekable stream. -/
def read_cstring_at (bs : List Nat) (pos : Nat) : List Nat × Nat :=
  let (s, n) := read_cstring_go (bs.drop pos)
  (s, pos + n)

/-- The loop of `read_compressed_int` on the remaining bytes of a
seekable stream, additionally returning the bytes consumed. -/
def read_varint_go : List Nat → Nat → Nat → Nat × Nat
  | [], _, acc => (acc, 0)
  | b :: r, i, acc =>
    let acc2 := (acc ||| (((b &&& 0x7f) <<< (i * 7)) % 2 ^ 32)) % 2 ^ 32
    if b < 0x80 then (acc2, 1)
    else
      let (v, n) := read_varint_go r (i + 1) acc2
      (v, n + 1)

/-- `read_compressed_int` at an absolute position. -/
def read_varint_at (bs : List Nat) (pos : Nat) : Nat × Nat :=
  let (v, n) := read_varint_go (bs.drop pos) 0 0
  (v, pos + n)

/-- `read_u32::<LittleEndian>` at an absolute position; `none` is the
end-of-input error. -/
def read_u32_at (bs : List Nat) (pos : Nat) : Option Nat :=
  match bs.drop pos with
  | a :: b :: c :: d :: _ => some (a + 256 * (b + 256 * (c + 256 * d)))
  | _ => none

mutual
/-- Embedding of `ConfigArray::read_rapified` (src/config.rs lines
154-178), with fuel for the nesting depth. -/
def ConfigArray.read_rapified : Nat → List Nat → Nat → Option (ConfigArray × Nat)
  | 0, _, _ => none
  | fuel + 1, bs, pos =>
    let (num, pos1) := read_varint_at bs pos
    match arrayElemsRead fuel bs num pos1 with
    | none => none
    | some (es, pos2) => some (.mk false es, pos2)
  termination_by structural fuel bs pos => fuel

/-- The element loop of `ConfigArray::read_rapified`. -/
def arrayElemsRead : Nat → List Nat → Nat → Nat →
    Option (List ConfigArrayElement × Nat)
  | 0, _, _, _ => none
  | _ + 1, _, 0, pos => some ([], pos)
  | fuel + 1, bs, n + 1, pos =>
    match bs.get? pos with
    | none => none
    | some t =>
      if t = 0 then
        let (s, pos1) := read_cstring_at bs (pos + 1)
        match arrayElemsRead fuel bs n pos1 with
        | none => none
        | some (es, pos2) => some (.stringElement s :: es, pos2)
      else if t = 1 then
        match read_u32_at bs (pos + 1) with
        | none => none
        | some w =>
          match arrayElemsRead fuel bs n (pos + 5) with
          | none => none
          | some (es, pos2) => some (.floatElement w :: es, pos2)
      else if t = 2 then
        match read_u32_at bs (pos + 1) with
        | none => none
        | some w =>
          match arrayElemsRead fuel bs n (pos + 5) with
          | none => none
          | some (es, pos2) => some (.intElement w :: es, pos2)
      else if t = 3 then
        match ConfigArray.read_rapified fuel bs (pos + 1) with
        | none => none
        | some (a, pos1) =>
          match arrayElemsRead fuel bs n pos1 with
          | none => none
          | some (es, pos2) => some (.arrayElement a :: es, pos2)
      else none
  termination_by structural fuel bs n pos => fuel
end

mutual
/-- Embedding of `ConfigClass::read_rapified` (src/config.rs lines
356-428), with fuel for the nesting depth.  At `level = 0` the reader
seeks to offset 16; at deeper levels it reads the body offset, follows
it, and afterwards restores the saved position. -/
def ConfigClass.read_rapified : Nat → List Nat → Nat → Nat →
    Option (ConfigClass × Nat)
  | 0, _, _, _ => none
  | fuel + 1, bs, level, pos =>
    let start : Option (Nat × Nat) :=
      if level = 0 then some (16, 0)
      else
        match read_u32_at bs pos with
        | none => none
        | some cb => some (cb, pos + 4)
    match start with
    | none => none
    | some (bodyPos, fp) =>
      let (parent, pos1) := read_cstring_at bs bodyPos
      let (num, pos2) := read_varint_at bs pos1
      match classEntriesRead fuel bs level num pos2 with
      | none => none
      | some (entries, pos3) =>
        some (.mk parent false false (some entries), if level > 0 then fp else pos3)
  termination_by structural fuel bs level pos => fuel

/-- The entry loop of `ConfigClass::read_rapified`, including the
source's `is_deletion: entry_type == 5` comparison in the
`entry_type == 3 || entry_type == 4` branch. -/
def classEntriesRead : Nat → List Nat → Nat → Nat → Nat →
    Option (List (List Nat × ConfigEntry) × Nat)
  | 0, _, _, _, _ => none
  | _ + 1, _, _, 0, pos => some ([], pos)
  | fuel + 1, bs, level, n + 1, pos =>
    match bs.get? pos with
    | none => none
    | some t =>
      if t = 0 then
        let (name, pos1) := read_cstring_at bs (pos + 1)
        match ConfigClass.read_rapified fuel bs (level + 1) pos1 with
        | none => none
        | some (c, pos2) =>
          match classEntriesRead fuel bs level n pos2 with
          | none => none
          | some (es, pos3) => some ((name, .classEntry c) :: es, pos3)
      else if t = 1 then
        match bs.get? (pos + 1) with
        | none => none
        | some sub =>
          let (name, pos1) := read_cstring_at bs (pos + 2)
          if sub = 0 then
            let (s, pos2) := read_cstring_at bs pos1
            match classEntriesRead fuel bs level n pos2 with
            | none => none
            | some (es, pos3) => some ((name, .stringEntry s) :: es, pos3)
          else if sub = 1 then
            match read_u32_at bs pos1 with
            | none => none
            | some w =>
              match classEntriesRead fuel bs level n (pos1 + 4) with
              | none => none
              | some (es, pos3) => some ((name, .floatEntry w) :: es, pos3)
          else if sub = 2 then
            match read_u32_at bs pos1 with
            | none => none
            | some w =>
              match classEntriesRead fuel bs level n (pos1 + 4) with
              | none => none
              | some (es, pos3) => some ((name, .intEntry w) :: es, pos3)
          else none
      else if t = 2 || t = 5 then
        let pos0 := if t = 5 then pos + 5 else pos + 1
        let (name, pos1) := read_cstring_at bs pos0
        match ConfigArray.read_rapified fuel bs pos1 with
        | none => none
        | some (.mk _ es0, pos2) =>
          match classEntriesRead fuel bs level n pos2 with
          | none => none
          | some (es, pos3) =>
            some ((name, .arrayEntry (.mk (t == 5) es0)) :: es, pos3)
      else if t = 3 || t = 4 then
        let (name, pos1) := read_cstring_at bs (pos + 1)
        let c : ConfigClass := .mk [] (t == 3) (t == 5) none
        match classEntriesRead fuel bs level n pos1 with
        | none => none
        | some (es, pos3) => some ((name, .classEntry c) :: es, pos3)
      else none
  termination_by structural fuel bs level n pos => fuel
end

/-- Embedding of `Config::read_rapified` (src/config.rs lines 522-535):
check the `\0raP` magic, then read the root class at level 0. -/
def Config.read_rapified (fuel : Nat) (bs : List Nat) : Option Config :=
  if bs.take 4 = [0, 0x72, 0x61, 0x50] then
    match ConfigClass.read_rapified fuel bs 0 4 with
    | none => none
    | some (c, _) => some ⟨c⟩
  else none

/-! ### Small evaluation lemmas for the well-founded varint functions -/

theorem write_compressed_int_zero : write_compressed_int 0 = [0] := by
  rw [write_compressed_int]
  norm_num

theorem write_compressed_int_one : write_compressed_int 1 = [1] := by
  rw [write_compressed_int]
  norm_num

theorem compressed_int_len_zero : compressed_int_len 0 = 1 := by
  rw [compressed_int_len]
  norm_num

theorem compressed_int_len_one : compressed_int_len 1 = 1 := by
  rw [compressed_int_len]
  norm_num

/-! ### C9: rapified output of the empty root class -/

/-- The config whose root class has no entries. -/
def emptyConfig : Config := ⟨.mk [] false false (some [])⟩

theorem write_rapified_emptyConfig :
    Config.write_rapified emptyConfig =
      some ([0, 0x72, 0x61, 0x50] ++ [0, 0, 0, 0, 8, 0, 0, 0] ++
        [18, 0, 0, 0] ++ [0] ++ [0] ++ [0, 0, 0, 0]) := by
  rw [Config.write_rapified]
  rw [show emptyConfig.root_body = .mk [] false false (some []) from rfl]
  rw [ConfigClass.write_rapified]
  simp [entriesWrite, entriesInlineLen, cstring, ConfigClass.rapified_length,
    entriesFullLen, write_compressed_int_zero, compressed_int_len_zero, bufferize,
    le32]

/-- C9 counterexample: the rapified bytes of the empty root class are not
the claimed sequence with `enum_offset = 17`; the body (empty parent
C-string plus varint 0) is 2 bytes long, so `16 + body_length = 18`. -/
theorem rapify_empty_enum_offset_17_false :
    ¬ (Config.write_rapified emptyConfig =
      some ([0, 0x72, 0x61, 0x50] ++ [0, 0, 0, 0, 8, 0, 0, 0] ++
        [17, 0, 0, 0] ++ [0] ++ [0] ++ [0, 0, 0, 0])) := by
  rw [write_rapified_emptyConfig]
  intro h
  have := Option.some.inj h
  simp at this

/-- C9 amended: rapifying the empty root class produces magic, reserved
bytes, `enum_offset = 18` (little endian), the empty parent C-string, the
varint 0 and the zero trailer; and in general the `enum_offset` field at
bytes 12..16 is `16 + body_length` where `body_length` is the root
class's `rapified_length`. -/
theorem rapify_empty_enum_offset :
    Config.write_rapified emptyConfig =
      some ([0, 0x72, 0x61, 0x50] ++ [0, 0, 0, 0, 8, 0, 0, 0] ++
        [18, 0, 0, 0] ++ [0] ++ [0] ++ [0, 0, 0, 0]) ∧
    ∀ cfg out, Config.write_rapified cfg = some out →
      (out.drop 12).take 4 = le32 (16 + cfg.root_body.rapified_length) := by
  constructor
  · exact write_rapified_emptyConfig
  · intro cfg out h
    rw [Config.write_rapified] at h
    rcases hw : cfg.root_body.write_rapified 16 with _ | body <;> rw [hw] at h
    · exact absurd h (by simp)
    · have h1 : (match bufferize cfg.root_body.rapified_length body with
          | none => none
          | some buf =>
            some ([0, 0x72, 0x61, 0x50] ++ [0, 0, 0, 0, 8, 0, 0, 0] ++
              le32 (16 + buf.length) ++ buf ++ [0, 0, 0, 0])) = some out := h
      rcases hb : bufferize cfg.root_body.rapified_length body with _ | buf <;>
        rw [hb] at h1
      · exact absurd h1 (by simp)
      · have hbuf : buf.length = cfg.root_body.rapified_length := by
          rw [bufferize] at hb
          by_cases hle : body.length ≤ cfg.root_body.rapified_length
          · rw [if_pos hle] at hb
            have hbeq := Option.some.inj hb
            rw [← hbeq]
            simp
            omega
          · rw [if_neg hle] at hb
            exact absurd hb (by simp)
        have hout : out = [0, 0x72, 0x61, 0x50] ++ [0, 0, 0, 0, 8, 0, 0, 0] ++
            le32 (16 + buf.length) ++ buf ++ [0, 0, 0, 0] :=
          (Option.some.inj h1).symm
        subst hout
        rw [hbuf]
        simp [le32]

/-- C9 witness: the general `enum_offset` clause applied to the empty
config, whose rapified bytes are computed concretely. -/
theorem rapify_empty_enum_offset_witness :
    Config.write_rapified emptyConfig =
      some ([0, 0x72, 0x61, 0x50] ++ [0, 0, 0, 0, 8, 0, 0, 0] ++
        [18, 0, 0, 0] ++ [0] ++ [0] ++ [0, 0, 0, 0]) ∧
    (([0, 0x72, 0x61, 0x50] ++ [0, 0, 0, 0, 8, 0, 0, 0] ++
        [18, 0, 0, 0] ++ [0] ++ [0] ++ [0, 0, 0, 0] : List Nat).drop 12).take 4 =
      le32 (16 + emptyConfig.root_body.rapified_length) :=
  ⟨rapify_empty_enum_offset.1,
    rapify_empty_enum_offset.2 emptyConfig _ rapify_empty_enum_offset.1⟩

/-! ### C1: the deletion-stub round trip -/

/-- A config whose root holds a single deletion stub `delete A;`. -/
def deletionConfig : Config :=
  ⟨.mk [] false false (some [([65], .classEntry (.mk [] false true none))])⟩

/-- The `is_deletion` flag of the first entry of the root class, when
that entry is a class. -/
def firstEntryIsDeletion : Config → Option Bool
  | ⟨.mk _ _ _ (some ((_, .classEntry (.mk _ _ del _)) :: _))⟩ => some del
  | _ => none

theorem write_rapified_deletionConfig :
    Config.write_rapified deletionConfig =
      some [0, 0x72, 0x61, 0x50, 0, 0, 0, 0, 8, 0, 0, 0,
        21, 0, 0, 0, 0, 1, 4, 65, 0, 0, 0, 0, 0] := by
  rw [Config.write_rapified]
  rw [show deletionConfig.root_body =
    .mk [] false false (some [([65], .classEntry (.mk [] false true none))]) from rfl]
  rw [ConfigClass.write_rapified]
  simp [entriesWrite, entriesInlineLen, cstring, ConfigClass.rapified_length,
    entriesFullLen, ConfigEntry.rapified_length, write_compressed_int_one,
    compressed_int_len_one, bufferize, le32]

/-- C1: reading back the rapified bytes of a config containing a deletion
stub yields a class entry with `is_deletion = false` (and
`is_external = false`), because `ConfigClass::read_rapified` tests
`entry_type == 5` instead of `== 4` when setting `is_deletion`; the
original entry has `is_deletion = true`, so the rapify round trip fails
on deletion stubs. -/
theorem rapified_deletion_read_back_false :
    ∃ bs, Config.write_rapified deletionConfig = some bs ∧
      Config.read_rapified 10 bs =
        some ⟨.mk [] false false
          (some [([65], .classEntry (.mk [] false false none))])⟩ ∧
      firstEntryIsDeletion deletionConfig = some true := by
  refine ⟨_, write_rapified_deletionConfig, by rfl, rfl⟩

/-! ## src/sign.rs: hash padding -/

/-- `Vec::resize(new_len, fill)`: truncate to `new_len`, or extend with
`fill`. -/
def resizeVec (v : List Nat) (newLen : Nat) (fill : Nat) : List Nat :=
  if newLen ≤ v.length then v.take newLen
  else v ++ List.replicate (newLen - v.length) fill

/-- The SHA-1 DER algorithm-identifier bytes emitted by `pad_hash`. -/
def sha1DerBytes : List Nat :=
  [0x00, 0x30, 0x21, 0x30, 0x09, 0x06, 0x05, 0x2b,
   0x0e, 0x03, 0x02, 0x1a, 0x05, 0x00, 0x04, 0x14]

/-- Embedding of `pad_hash` (src/sign.rs lines 149-160) at the byte
level: `vec![0, 1]`, `resize(size - 36, 255)`, the DER bytes, the raw
digest.  `size - 36` is a `usize` subtraction that panics (or, in release
mode, aborts on the enormous resize) when `size < 36`; that case is
`none`. -/
def pad_hash_bytes (hash : List Nat) (size : Nat) : Option (List Nat) :=
  if size < 36 then none
  else some (resizeVec [0, 1] (size - 36) 255 ++ sha1DerBytes ++ hash)

/-- `BigNum::from_slice`: big-endian bytes to a natural number. -/
def bigNumOfBytes (bs : List Nat) : Nat := bs.foldl (fun a b => a * 256 + b) 0

/-- `pad_hash` as the big integer the source constructs. -/
def pad_hash (hash : List Nat) (size : Nat) : Option Nat :=
  (pad_hash_bytes hash size).map bigNumOfBytes

/-- C8 counterexample: at key byte-size `k = 40` and the all-zero digest,
the padded bytes are not `00 01` followed by `k - 36 = 4` bytes of `FF`:
`resize(size - 36, 255)` resizes the vector that already holds `00 01`
to total length `size - 36`, so only `k - 38 = 2` bytes of `FF` appear. -/
theorem pad_hash_ff_count_false :
    ¬ (pad_hash_bytes (List.replicate 20 0) 40 =
      some ([0, 1] ++ List.replicate 4 0xff ++ sha1DerBytes ++
        List.replicate 20 0)) := by
  decide

/-- C8 amended: for every 20-byte digest and every key byte-size
`k ≥ 38`, the padded hash is `00 01`, then `FF` repeated `k - 38` times,
then `00 30 21 30 09 06 05 2B 0E 03 02 1A 05 00 04 14`, then the 20 raw
digest bytes, and its total length is `k`. -/
theorem pad_hash_bytes_eq (hash : List Nat) (k : Nat) (hk : 38 ≤ k)
    (hh : hash.length = 20) :
    pad_hash_bytes hash k =
      some ([0, 1] ++ List.replicate (k - 38) 0xff ++ sha1DerBytes ++ hash) ∧
    (pad_hash_bytes hash k).map List.length = some k := by
  have h36 : ¬ (k < 36) := by omega
  have hresize : resizeVec [0, 1] (k - 36) 255 =
      [0, 1] ++ List.replicate (k - 38) 255 := by
    by_cases hk38 : k = 38
    · subst hk38
      decide
    · rw [resizeVec]
      have hgt : ¬ (k - 36 ≤ ([0, 1] : List Nat).length) := by
        simp only [List.length_cons, List.length_nil]
        omega
      rw [if_neg hgt]
      have hlen2 : k - 36 - ([0, 1] : List Nat).length = k - 38 := by
        simp only [List.length_cons, List.length_nil]
        omega
      rw [hlen2]
  constructor
  · rw [pad_hash_bytes, if_neg h36, hresize]
  · rw [pad_hash_bytes, if_neg h36, hresize]
    simp only [Option.map_some']
    congr 1
    simp only [List.length_append, List.length_cons, List.length_nil,
      List.length_replicate, hh]
    rw [show sha1DerBytes.length = 16 from rfl]
    omega

/-- C8 witness: the amended padding shape at the 1024-bit key size
`k = 128` and the all-zero digest. -/
theorem pad_hash_bytes_eq_witness :
    (38 ≤ 128 ∧ (List.replicate 20 0 : List Nat).length = 20) ∧
    (pad_hash_bytes (List.replicate 20 0) 128 =
      some ([0, 1] ++ List.replicate (128 - 38) 0xff ++ sha1DerBytes ++
        List.replicate 20 0) ∧
    (pad_hash_bytes (List.replicate 20 0) 128).map List.length = some 128) :=
  ⟨⟨by norm_num, by simp⟩,
    pad_hash_bytes_eq (List.replicate 20 0) 128 (by norm_num) (by simp)⟩

/-! ## src/sign.rs: keys, signing and verification -/

/-- Embedding of `BISignVersion` (src/sign.rs lines 39-44). -/
inductive BISignVersion where
  | V2
  | V3

/-- Embedding of `BIPrivateKey` (src/sign.rs lines 16-27); the `BigNum`
fields are natural numbers. -/
structure BIPrivateKey where
  name : List Nat
  length : Nat
  exponent : Nat
  n : Nat
  p : Nat
  q : Nat
  dmp1 : Nat
  dmq1 : Nat
  iqmp : Nat
  d : Nat

/-- Embedding of `BIPublicKey` (src/sign.rs lines 30-35). -/
structure BIPublicKey where
  name : List Nat
  length : Nat
  exponent : Nat
  n : Nat

/-- Embedding of `BISign` (src/sign.rs lines 47-56). -/
structure BISign where
  version : BISignVersion
  name : List Nat
  length : Nat
  exponent : Nat
  n : Nat
  sig1 : Nat
  sig2 : Nat
  sig3 : Nat

/-- Bytes of an ASCII string literal. -/
def strBytes (s : String) : List Nat := s.toList.map (fun c => c.toNat)

/-- `name.split('.').last()`: the bytes after the last `.` (the whole
name when there is no dot). -/
def extOf (name : List Nat) : List Nat :=
  (name.reverse.takeWhile (fun c => c != 46)).reverse

/-- The extensions excluded by the V2 file hash (src/sign.rs lines
91-96). -/
def v2Excluded : List (List Nat) :=
  ["paa", "jpg", "p3d", "tga", "rvmat", "lip", "ogg", "wss", "png",
   "rtm", "pac", "fxy", "wrp"].map strBytes

/-- The extensions included by the V3 file hash (src/sign.rs lines
98-103). -/
def v3Included : List (List Nat) :=
  ["sqf", "inc", "bikb", "ext", "fsm", "sqm", "hpp", "cfg", "sqs",
   "h"].map strBytes

/-- Stable insertion into a run sorted by the (already lowercased) name,
for the `sort_by(|a, b| a.0.cmp(&b.0))` in `namehash`. -/
def nhInsert (x : List Nat × List Nat) :
    List (List Nat × List Nat) → List (List Nat × List Nat)
  | [] => [x]
  | y :: ys => if bytesLt y.1 x.1 then y :: nhInsert x ys else x :: y :: ys

/-- Stable sort by the lowercased name. -/
def nhSort : List (List Nat × List Nat) → List (List Nat × List Nat)
  | [] => []
  | x :: xs => nhInsert x (nhSort xs)

/-- Embedding of `namehash` (src/sign.rs lines 66-81): SHA-1 over the
lowercased names in sorted order, skipping files with empty contents. -/
def namehash (pbo : PBO) : List Nat :=
  let sorted := nhSort (pbo.files.map (fun ab => (lowerBytes ab.1, ab.2)))
  sha1 ((sorted.filter (fun ab => !ab.2.isEmpty)).foldr
    (fun ab acc => ab.1 ++ acc) [])

/-- The filter-and-concatenate loop of `filehash` (src/sign.rs lines
87-108), returning the hashed bytes and the `nothing` flag. -/
def filehashFold : BISignVersion → List (List Nat × List Nat) → List Nat × Bool
  | _, [] => ([], true)
  | v, (name, data) :: rest =>
    let keep : Bool :=
      match v with
      | .V2 => !(v2Excluded.contains (extOf name))
      | .V3 => v3Included.contains (extOf name)
    let (tl, nothing) := filehashFold v rest
    if keep then (data ++ tl, false) else (tl, nothing)

/-- Embedding of `filehash` (src/sign.rs lines 83-116). -/
def filehash (pbo : PBO) (v : BISignVersion) : List Nat :=
  let (bytes, nothing) := filehashFold v pbo.files
  sha1 (bytes ++
    (if nothing then
      (match v with
        | .V2 => strBytes "nothing"
        | .V3 => strBytes "gnihton")
     else []))

/-- The prefix-extension bytes hashed into hashes 2 and 3 (src/sign.rs
lines 125-130, 136-141): the prefix value with `\` appended unless it
already ends with one; nothing when no prefix extension exists. -/
def pfxPart (pbo : PBO) : List Nat :=
  match alistGet pbo.header_extensions pfxKey with
  | some v => v ++ (if v.getLast? = some 92 then [] else [92])
  | none => []

/-- Embedding of `generate_hashes` (src/sign.rs lines 118-147): the
stored checksum (padded), SHA-1 of checksum, name hash and prefix
(padded), and SHA-1 of file hash, name hash and prefix (padded).
`checksum.unwrap()` on a checksum-less PBO and the `pad_hash` panic for
key sizes below 36 bytes are `none`. -/
def generate_hashes (pbo : PBO) (v : BISignVersion) (length : Nat) :
    Option (Nat × Nat × Nat) :=
  match pbo.checksum with
  | none => none
  | some checksum =>
    match pad_hash checksum (length / 8),
        pad_hash (sha1 (checksum ++ namehash pbo ++ pfxPart pbo)) (length / 8),
        pad_hash (sha1 (filehash pbo v ++ namehash pbo ++ pfxPart pbo)) (length / 8) with
    | some h1, some h2, some h3 => some (h1, h2, h3)
    | _, _, _ => none

/-- Fuelled fast modular exponentiation; the fuel bounds the binary
length of the exponent. -/
def mod_exp_fuel : Nat → Nat → Nat → Nat → Nat
  | 0, _, _, m => 1 % m
  | fuel + 1, b, e, m =>
    if e = 0 then 1 % m
    else
      let r := mod_exp_fuel fuel (b * b % m) (e / 2) m
      if e % 2 = 1 then r * b % m else r

/-- Modelled from the spec: OpenSSL `BigNum::mod_exp`, computing
`b ^ e mod m` (square and multiply; `e + 1` fuel always suffices since
`e < 2 ^ (e + 1)`). -/
def mod_exp (b e m : Nat) : Nat := mod_exp_fuel (e + 1) b e m

theorem mod_exp_fuel_eq : ∀ (fuel b e m : Nat), 0 < m → e < 2 ^ fuel →
    mod_exp_fuel fuel b e m = b ^ e % m := by
  intro fuel
  induction fuel with
  | zero =>
    intro b e m hm he
    have he0 : e = 0 := by
      have : e < 1 := by simpa using he
      omega
    subst he0
    simp [mod_exp_fuel]
  | succ f ih =>
    intro b e m hm he
    by_cases he0 : e = 0
    · subst he0
      simp [mod_exp_fuel]
    · rw [mod_exp_fuel, if_neg he0]
      have he2 : e / 2 < 2 ^ f := by
        have h2 : e < 2 * 2 ^ f := by
          calc e < 2 ^ (f + 1) := he
            _ = 2 * 2 ^ f := by ring
        omega
      rw [ih (b * b % m) (e / 2) m hm he2, ← Nat.pow_mod]
      have hpow : (b * b) ^ (e / 2) = b ^ (2 * (e / 2)) := by
        rw [two_mul, pow_add, ← pow_two]
        rw [← pow_mul]
        rw [show 2 * (e / 2) = e / 2 * 2 by ring]
        rw [pow_mul, pow_two]
      by_cases hodd : e % 2 = 1
      · rw [if_pos hodd, hpow]
        have hmm : b ^ (2 * (e / 2)) % m * b % m = b ^ (2 * (e / 2)) * b % m :=
          Nat.mod_mul_mod
        rw [hmm, ← pow_succ]
        congr 2
        omega
      · rw [if_neg hodd, hpow]
        congr 2
        omega

theorem mod_exp_eq (b e m : Nat) (hm : 0 < m) : mod_exp b e m = b ^ e % m :=
  mod_exp_fuel_eq (e + 1) b e m hm (Nat.lt_two_pow (e + 1) |> fun h =>
    lt_of_le_of_lt (Nat.le_succ e) h)

/-- Embedding of `BIPrivateKey::to_public_key` (src/sign.rs lines
263-270). -/
def BIPrivateKey.to_public_key (k : BIPrivateKey) : BIPublicKey :=
  ⟨k.name, k.length, k.exponent, k.n⟩

/-- Embedding of `BIPrivateKey::sign` (src/sign.rs lines 273-295):
`sig_i = hash_i ^ d mod n`. -/
def BIPrivateKey.sign (k : BIPrivateKey) (pbo : PBO) (v : BISignVersion) :
    Option BISign :=
  match generate_hashes pbo v k.length with
  | none => none
  | some (h1, h2, h3) =>
    some ⟨v, k.name, k.length, k.exponent, k.n,
      mod_exp h1 k.d k.n, mod_exp h2 k.d k.n, mod_exp h3 k.d k.n⟩

/-- The outcome of `BIPublicKey::verify`: success, or the structured
error naming the first mismatching hash. -/
inductive VerifyResult where
  | ok
  | mismatch (i : Nat)
deriving DecidableEq

/-- Embedding of `BIPublicKey::verify` (src/sign.rs lines 344-374):
recompute the three padded hashes, raise each signature to the public
exponent mod `n`, and compare. -/
def BIPublicKey.verify (pk : BIPublicKey) (pbo : PBO) (sig : BISign) :
    Option VerifyResult :=
  match generate_hashes pbo sig.version pk.length with
  | none => none
  | some (r1, r2, r3) =>
    let s1 := mod_exp sig.sig1 pk.exponent pk.n
    let s2 := mod_exp sig.sig2 pk.exponent pk.n
    let s3 := mod_exp sig.sig3 pk.exponent pk.n
    some (if r1 ≠ s1 then .mismatch 1
      else if r2 ≠ s2 then .mismatch 2
      else if r3 ≠ s3 then .mismatch 3
      else .ok)

/-! ### Bounds on the padded hashes -/

theorem foldl_bytes_lt : ∀ (bs : List Nat) (acc : Nat), (∀ b ∈ bs, b < 256) →
    List.foldl (fun a b => a * 256 + b) acc bs < (acc + 1) * 256 ^ bs.length := by
  intro bs
  induction bs with
  | nil =>
    intro acc _
    simp
  | cons b t ih =>
    intro acc h
    simp only [List.foldl_cons, List.length_cons]
    have hb : b < 256 := h b (List.mem_cons_self b t)
    calc List.foldl (fun a b => a * 256 + b) (acc * 256 + b) t
        < (acc * 256 + b + 1) * 256 ^ t.length :=
          ih _ (fun x hx => h x (List.mem_cons_of_mem b hx))
      _ ≤ ((acc + 1) * 256) * 256 ^ t.length := by
          apply Nat.mul_le_mul_right
          omega
      _ = (acc + 1) * 256 ^ (t.length + 1) := by ring

theorem bigNumOfBytes_lt (bs : List Nat) (h : ∀ b ∈ bs, b < 256) :
    bigNumOfBytes bs < 256 ^ bs.length := by
  have := foldl_bytes_lt bs 0 h
  simpa [bigNumOfBytes] using this

theorem bigNumOfBytes_cons_zero (t : List Nat) :
    bigNumOfBytes (0 :: t) = bigNumOfBytes t := by
  simp [bigNumOfBytes]

theorem resizeVec_length (v : List Nat) (n f : Nat) :
    (resizeVec v n f).length = n := by
  rw [resizeVec]
  by_cases h : n ≤ v.length
  · rw [if_pos h]
    simp [Nat.min_eq_left h]
  · rw [if_neg h]
    simp
    omega

theorem pad_hash_eval (hash : List Nat) (size : Nat) (hs : 36 ≤ size) :
    pad_hash hash size =
      some (bigNumOfBytes (resizeVec [0, 1] (size - 36) 255 ++ sha1DerBytes ++ hash)) := by
  rw [pad_hash, pad_hash_bytes, if_neg (by omega : ¬ (size < 36))]
  rfl

theorem pad_value_lt (hash : List Nat) (size : Nat) (hs : 36 ≤ size)
    (hlen : hash.length = 20) (hb : ∀ b ∈ hash, b < 256) :
    bigNumOfBytes (resizeVec [0, 1] (size - 36) 255 ++ sha1DerBytes ++ hash) <
      2 ^ (8 * size - 8) := by
  set L := resizeVec [0, 1] (size - 36) 255 ++ sha1DerBytes ++ hash with hL
  have hLlen : L.length = size := by
    rw [hL]
    simp only [List.length_append, resizeVec_length, hlen]
    rw [show sha1DerBytes.length = 16 from rfl]
    omega
  have hLb : ∀ b ∈ L, b < 256 := by
    intro b hbmem
    rw [hL] at hbmem
    simp only [List.mem_append] at hbmem
    rcases hbmem with (hr | hd) | hh
    · rw [resizeVec] at hr
      by_cases hc : size - 36 ≤ ([0, 1] : List Nat).length
      · rw [if_pos hc] at hr
        have := List.take_subset (size - 36) ([0, 1] : List Nat) hr
        simp at this
        omega
      · rw [if_neg hc] at hr
        simp only [List.mem_append] at hr
        rcases hr with hr | hr
        · simp at hr
          omega
        · have := List.eq_of_mem_replicate hr
          omega
    · have : b ∈ sha1DerBytes := hd
      rw [sha1DerBytes] at this
      simp at this
      omega
    · exact hb b hh
  have hhead : ∃ t, L = 0 :: t := by
    rw [hL]
    rcases Nat.eq_zero_or_pos (size - 36) with h0 | hpos
    · rw [h0, resizeVec]
      simp
      exact ⟨_, rfl⟩
    · rw [resizeVec]
      by_cases hc : size - 36 ≤ ([0, 1] : List Nat).length
      · rw [if_pos hc]
        have h2 : size - 36 = 1 ∨ size - 36 = 2 := by
          simp only [List.length_cons, List.length_nil] at hc
          omega
        rcases h2 with h2 | h2 <;> rw [h2] <;> exact ⟨_, rfl⟩
      · rw [if_neg hc]
        exact ⟨_, rfl⟩
  obtain ⟨t, ht⟩ := hhead
  have htlen : t.length = size - 1 := by
    have := hLlen
    rw [ht] at this
    simp at this
    omega
  have htb : ∀ b ∈ t, b < 256 := by
    intro b hbm
    exact hLb b (ht ▸ List.mem_cons_of_mem 0 hbm)
  calc bigNumOfBytes L = bigNumOfBytes t := by rw [ht, bigNumOfBytes_cons_zero]
    _ < 256 ^ t.length := bigNumOfBytes_lt t htb
    _ = 2 ^ (8 * size - 8) := by
        rw [htlen, show (256 : Nat) = 2 ^ 8 from rfl, ← pow_mul]
        congr 1
        omega

/-! ### RSA correctness -/

theorem exists_mul_sub_one (p e d : Nat) (hp : 2 ≤ p)
    (hed : e * d ≡ 1 [MOD p - 1]) (hpos : 0 < e * d) :
    ∃ k, e * d = k * (p - 1) + 1 := by
  rcases eq_or_lt_of_le hp with h2 | h3
  · subst h2
    exact ⟨e * d - 1, by omega⟩
  · have h1 : e * d % (p - 1) = 1 := by
      have hmod := hed
      rw [Nat.ModEq] at hmod
      rwa [Nat.mod_eq_of_lt (by omega : 1 < p - 1)] at hmod
    refine ⟨e * d / (p - 1), ?_⟩
    have hdm := Nat.div_add_mod (e * d) (p - 1)
    have hcomm : e * d / (p - 1) * (p - 1) = (p - 1) * (e * d / (p - 1)) :=
      Nat.mul_comm _ _
    omega

theorem rsa_pow_mod_prime (p : Nat) (hp : p.Prime) (H m : Nat)
    (hm : ∃ k, m = k * (p - 1) + 1) : H ^ m ≡ H [MOD p] := by
  obtain ⟨k, rfl⟩ := hm
  haveI : Fact p.Prime := ⟨hp⟩
  rw [← ZMod.natCast_eq_natCast_iff]
  push_cast
  by_cases h0 : (H : ZMod p) = 0
  · rw [h0, zero_pow (by omega : k * (p - 1) + 1 ≠ 0)]
  · calc (H : ZMod p) ^ (k * (p - 1) + 1)
        = ((H : ZMod p) ^ (p - 1)) ^ k * H := by
          rw [pow_succ, mul_comm k (p - 1), pow_mul]
      _ = H := by rw [ZMod.pow_card_sub_one_eq_one h0, one_pow, one_mul]

/-- Correctness of textbook RSA over `n = p * q`: decrypt-then-encrypt
is the identity below `n`. -/
theorem rsa_core (p q e d H : Nat) (hp : p.Prime) (hq : q.Prime)
    (hpq : p ≠ q) (he : 0 < e) (hd : 0 < d)
    (hedp : e * d ≡ 1 [MOD p - 1]) (hedq : e * d ≡ 1 [MOD q - 1])
    (hH : H < p * q) : (H ^ d % (p * q)) ^ e % (p * q) = H := by
  have hed : 0 < e * d := Nat.mul_pos he hd
  have hkp := exists_mul_sub_one p e d hp.two_le hedp hed
  have hkq := exists_mul_sub_one q e d hq.two_le hedq hed
  have hmp : H ^ (e * d) ≡ H [MOD p] := rsa_pow_mod_prime p hp H (e * d) hkp
  have hmq : H ^ (e * d) ≡ H [MOD q] := rsa_pow_mod_prime q hq H (e * d) hkq
  have hcop : Nat.Coprime p q := (Nat.coprime_primes hp hq).mpr hpq
  have hmpq : H ^ (e * d) ≡ H [MOD p * q] :=
    (Nat.modEq_and_modEq_iff_modEq_mul hcop).mp ⟨hmp, hmq⟩
  calc (H ^ d % (p * q)) ^ e % (p * q) = (H ^ d) ^ e % (p * q) := by
        rw [← Nat.pow_mod]
    _ = H ^ (d * e) % (p * q) := by rw [← pow_mul]
    _ = H ^ (e * d) % (p * q) := by rw [mul_comm d e]
    _ = H % (p * q) := hmpq
    _ = H := Nat.mod_eq_of_lt hH

/-! ### C2: verify ∘ sign succeeds -/

/-- C2: for every PBO with a stored 20-byte checksum, every private key
whose components satisfy the RSA key invariants that `Rsa::generate`
establishes (distinct primes `p`, `q` with `n = p * q`, `e * d ≡ 1`
modulo `p - 1` and `q - 1`), whose size admits the hash padding
(`length / 8 ≥ 36`) and whose modulus bounds the padded hashes, and both
versions: verifying the signature produced by `sign` against the derived
public key returns Ok — each `(H_i ^ d mod n) ^ e mod n = H_i`. -/
theorem sign_verify_ok (k : BIPrivateKey) (pbo : PBO) (v : BISignVersion)
    (c : List Nat) (hc : pbo.checksum = some c) (hclen : c.length = 20)
    (hcb : ∀ b ∈ c, b < 256)
    (hp : k.p.Prime) (hq : k.q.Prime) (hpq : k.p ≠ k.q)
    (hn : k.n = k.p * k.q) (he : 0 < k.exponent) (hd : 0 < k.d)
    (hedp : k.exponent * k.d ≡ 1 [MOD k.p - 1])
    (hedq : k.exponent * k.d ≡ 1 [MOD k.q - 1])
    (hsz : 36 ≤ k.length / 8)
    (hbound : 2 ^ (8 * (k.length / 8) - 8) ≤ k.n) :
    ∃ sig, k.sign pbo v = some sig ∧
      (k.to_public_key).verify pbo sig = some .ok := by
  have hnpos : 0 < k.n := by
    rw [hn]
    exact Nat.mul_pos hp.pos hq.pos
  set size := k.length / 8 with hsize
  set H1 := bigNumOfBytes (resizeVec [0, 1] (size - 36) 255 ++ sha1DerBytes ++ c)
    with hH1
  set H2 := bigNumOfBytes (resizeVec [0, 1] (size - 36) 255 ++ sha1DerBytes ++
    sha1 (c ++ namehash pbo ++ pfxPart pbo)) with hH2
  set H3 := bigNumOfBytes (resizeVec [0, 1] (size - 36) 255 ++ sha1DerBytes ++
    sha1 (filehash pbo v ++ namehash pbo ++ pfxPart pbo)) with hH3
  have hgen : generate_hashes pbo v k.length = some (H1, H2, H3) := by
    simp only [generate_hashes, hc]
    rw [← hsize, pad_hash_eval _ _ hsz, pad_hash_eval _ _ hsz,
      pad_hash_eval _ _ hsz]
  have hlt : ∀ dg : List Nat, dg.length = 20 → (∀ b ∈ dg, b < 256) →
      bigNumOfBytes (resizeVec [0, 1] (size - 36) 255 ++ sha1DerBytes ++ dg) < k.n :=
    fun dg h1 h2 => lt_of_lt_of_le (pad_value_lt dg size hsz h1 h2) hbound
  have hH1lt : H1 < k.n := hlt c hclen hcb
  have hH2lt : H2 < k.n := hlt _ (sha1_length _) (sha1_bytes_lt _)
  have hH3lt : H3 < k.n := hlt _ (sha1_length _) (sha1_bytes_lt _)
  have hmath : ∀ H : Nat, H < k.n →
      mod_exp (mod_exp H k.d k.n) k.exponent k.n = H := by
    intro H hH
    rw [mod_exp_eq _ _ _ hnpos, mod_exp_eq _ _ _ hnpos]
    rw [hn] at hH ⊢
    exact rsa_core k.p k.q k.exponent k.d H hp hq hpq he hd hedp hedq hH
  refine ⟨⟨v, k.name, k.length, k.exponent, k.n,
    mod_exp H1 k.d k.n, mod_exp H2 k.d k.n, mod_exp H3 k.d k.n⟩, ?_, ?_⟩
  · rw [BIPrivateKey.sign, hgen]
  · rw [BIPublicKey.verify]
    show (match generate_hashes pbo v k.length with
      | none => none
      | some (r1, r2, r3) =>
        let s1 := mod_exp (mod_exp H1 k.d k.n) k.exponent k.n
        let s2 := mod_exp (mod_exp H2 k.d k.n) k.exponent k.n
        let s3 := mod_exp (mod_exp H3 k.d k.n) k.exponent k.n
        some (if r1 ≠ s1 then .mismatch 1
          else if r2 ≠ s2 then .mismatch 2
          else if r3 ≠ s3 then .mismatch 3
          else VerifyResult.ok)) = some VerifyResult.ok
    rw [hgen, hmath H1 hH1lt, hmath H2 hH2lt, hmath H3 hH3lt]
    simp

/-- First prime of the concrete witness key (a Mersenne prime). -/
def wP : Nat := 2 ^ 127 - 1

/-- Second prime of the concrete witness key (a Mersenne prime). -/
def wQ : Nat := 2 ^ 521 - 1

/-- Private exponent of the witness key: the inverse of 65537 modulo
`lcm (wP - 1) (wQ - 1)`. -/
def wD : Nat := 193900767558032071937636487021452117448910287312278971207800283425644781136078887330150457137153435273259066364624685827854923748501752122182388647400968388233585136878839649485385373845435689473

/-- A concrete 648-bit RSA private key. -/
def witnessKey : BIPrivateKey := ⟨[], 648, 65537, wP * wQ, wP, wQ, 0, 0, 0, wD⟩

/-- A concrete PBO with a stored 20-byte checksum. -/
def witnessPBO : PBO := ⟨[], [], [], some (List.replicate 20 0)⟩

set_option maxRecDepth 10000 in
/-- C2 witness: the sign/verify round trip applied to the concrete key
and PBO, discharging every hypothesis (primality via Lucas-Lehmer). -/
theorem sign_verify_ok_witness :
    (witnessPBO.checksum = some (List.replicate 20 0) ∧
     (List.replicate 20 0 : List Nat).length = 20 ∧
     (∀ b ∈ (List.replicate 20 0 : List Nat), b < 256) ∧
     Nat.Prime witnessKey.p ∧ Nat.Prime witnessKey.q ∧
     witnessKey.p ≠ witnessKey.q ∧
     witnessKey.n = witnessKey.p * witnessKey.q ∧
     0 < witnessKey.exponent ∧ 0 < witnessKey.d ∧
     witnessKey.exponent * witnessKey.d ≡ 1 [MOD witnessKey.p - 1] ∧
     witnessKey.exponent * witnessKey.d ≡ 1 [MOD witnessKey.q - 1] ∧
     36 ≤ witnessKey.length / 8 ∧
     2 ^ (8 * (witnessKey.length / 8) - 8) ≤ witnessKey.n) ∧
    (∃ sig, witnessKey.sign witnessPBO BISignVersion.V2 = some sig ∧
      (witnessKey.to_public_key).verify witnessPBO sig =
        some VerifyResult.ok) := by
  have hp : Nat.Prime witnessKey.p := by
    show Nat.Prime wP
    have hmp : wP = mersenne 127 := by rw [wP, mersenne]
    rw [hmp]
    exact lucas_lehmer_sufficiency 127 (by norm_num) (by norm_num)
  have hq : Nat.Prime witnessKey.q := by
    show Nat.Prime wQ
    have hmq : wQ = mersenne 521 := by rw [wQ, mersenne]
    rw [hmq]
    exact lucas_lehmer_sufficiency 521 (by norm_num) (by norm_num)
  refine ⟨⟨rfl, by decide, by decide, hp, hq, by decide, rfl, by decide,
    by decide, by decide, by decide, by decide, by decide⟩, ?_⟩
  exact sign_verify_ok witnessKey witnessPBO BISignVersion.V2
    (List.replicate 20 0) rfl (by decide) (by decide) hp hq (by decide) rfl
    (by decide) (by decide) (by decide) (by decide) (by decide) (by decide)

/-! ## src/preprocess.rs: the preprocessor

Strings are `List Char`.  The two PEG grammars (`preprocess_grammar`,
generated at build time and absent from the repository's src/ tree) enter
as parameters: `tg` models `preprocess_grammar::tokens` and `g` models
`preprocess_grammar::file`; the filesystem behind `#include` is a finite
map from include path to file bytes.  All recursion is fuelled;
exhausted fuel reports the distinguished `panicked` outcome, as do the
source's panics (`assert!`, out-of-bounds slicing). -/

/-- Character strings of the preprocessor model. -/
abbrev Str := List Char

/-- Embedding of `Macro` (src/preprocess.rs lines 48-53). -/
structure MacroInv where
  name : Str
  arguments : Option (List Str)
  original : Str
  quoted : Bool

/-- Embedding of `Token` (src/preprocess.rs lines 57-68). -/
inductive PToken where
  | regularToken (s : Str)
  | newlineToken (s : Str) (n : Nat)
  | macroToken (m : MacroInv)
  | commentToken (n : Nat)
  | concatTok

/-- Embedding of `Definition` (src/preprocess.rs lines 20-25). -/
structure Definition where
  name : Str
  parameters : Option (List Str)
  value : List PToken
  isLocal : Bool

/-- Embedding of `Directive` (src/preprocess.rs lines 29-44). -/
inductive Directive where
  | includeDirective (path : Str)
  | defineDirective (d : Definition)
  | undefDirective (name : Str)
  | ifDefDirective (name : Str)
  | ifNDefDirective (name : Str)
  | elseDirective
  | endIfDirective

/-- Embedding of `Line` (src/preprocess.rs lines 72-77). -/
inductive PLine where
  | directiveLine (d : Directive) (newlines : Nat)
  | tokenLine (ts : List PToken)

/-- The outcome of a preprocessor run: success, a structured error, or a
panic (`assert!`, slicing, exhausted fuel). -/
inductive PResult (α : Type) where
  | ok (a : α)
  | err (msg : Str)
  | panicked

/-- `HashMap::get` on the definition map. -/
def mapGet : List (Str × Definition) → Str → Option Definition
  | [], _ => none
  | (k, v) :: rest, key => if k = key then some v else mapGet rest key

/-- `HashMap::remove`. -/
def mapRemove (m : List (Str × Definition)) (k : Str) : List (Str × Definition) :=
  m.filter (fun kv => kv.1 ≠ k)

/-- `HashMap::insert` (the source removes any existing entry first). -/
def mapInsert (m : List (Str × Definition)) (k : Str) (d : Definition) :
    List (Str × Definition) :=
  (k, d) :: mapRemove m k

/-- `HashMap::contains_key`. -/
def containsKey (m : List (Str × Definition)) (k : Str) : Bool :=
  (mapGet m k).isSome

/-- The modelled filesystem behind `#include`: path to file bytes. -/
def lookupFile : List (Str × List Nat) → Str → Option (List Nat)
  | [], _ => none
  | (k, v) :: rest, key => if k = key then some v else lookupFile rest key

/-- Embedding of `Token::concat` (src/preprocess.rs lines 238-263):
concatenated text (macro tokens contribute their `original`) and the
newline count. -/
def tokenConcat : List PToken → Str × Nat
  | [] => ([], 0)
  | t :: rest =>
    let (s, n) := tokenConcat rest
    match t with
    | .regularToken r => (r ++ s, n)
    | .newlineToken r k => (r ++ s, n + k)
    | .macroToken m => (m.original ++ s, n)
    | .commentToken k => (s, n + k)
    | .concatTok => (s, n)

/-- Rust `char::is_whitespace` for the ASCII whitespace `trim` meets
here. -/
def isWS (c : Char) : Bool := c = ' ' || c = '\t' || c = '\n' || c = '\r'

/-- `str::trim`. -/
def trimStr (s : Str) : Str :=
  ((s.dropWhile isWS).reverse.dropWhile isWS).reverse

/-- `str::replace("\r\n", "\n")`, left to right. -/
def replaceCRLF : Str → Str
  | [] => []
  | [c] => [c]
  | c :: c2 :: rest =>
    if c = '\r' ∧ c2 = '\n' then '\n' :: replaceCRLF rest
    else c :: replaceCRLF (c2 :: rest)

/-- `str::replace("\\\n", "")`, left to right. -/
def removeCont : Str → Str
  | [] => []
  | [c] => [c]
  | c :: c2 :: rest =>
    if c = '\\' ∧ c2 = '\n' then removeCont rest
    else c :: removeCont (c2 :: rest)

/-- The number of newline characters in a string. -/
def countNl (s : Str) : Nat := s.count '\n'

/-- The newline count of a definition body, added to the line counter
when a `#define` is processed (src/preprocess.rs lines 421-425). -/
def tokenNewlineSum : List PToken → Nat
  | [] => 0
  | .newlineToken _ n :: rest => n + tokenNewlineSum rest
  | .commentToken n :: rest => n + tokenNewlineSum rest
  | _ :: rest => tokenNewlineSum rest

mutual
/-- Embedding of `Definition::value` (src/preprocess.rs lines 123-167).
`some none` is the parameter-count-mismatch result; the outer `none` is
exhausted fuel. -/
def defValue : Nat → (Str → List PToken) → Definition → Option (List Str) →
    List (Str × Definition) → List Definition → Option (Option (List PToken))
  | 0, _, _, _, _, _ => none
  | fuel + 1, tg, d, arguments, defMap, stack =>
    let params := d.parameters.getD []
    let args := arguments.getD []
    if params.length ≠ args.length then some none
    else
      let tokens := d.value
      if stack.any (fun s => s.name = d.name) then some (some tokens)
      else
        let stackNew := stack ++ [d]
        if params.isEmpty then
          (resolve_all fuel tg tokens defMap stackNew).map some
        else
          match buildLocalMap fuel tg (params.zip args) defMap defMap with
          | none => none
          | some localMap =>
            (resolve_all fuel tg tokens localMap stackNew).map some
  termination_by structural fuel tg d arguments defMap stack => fuel

/-- The argument loop of `Definition::value`: each raw argument is
tokenised, resolved against the original map with an empty stack, and
installed as a `local` definition. -/
def buildLocalMap : Nat → (Str → List PToken) → List (Str × Str) →
    List (Str × Definition) → List (Str × Definition) →
    Option (List (Str × Definition))
  | 0, _, _, _, _ => none
  | _ + 1, _, [], _, acc => some acc
  | fuel + 1, tg, (param, arg) :: rest, defMap, acc =>
    match resolve_all fuel tg (tg arg) defMap [] with
    | none => none
    | some tokens =>
      buildLocalMap fuel tg rest defMap
        (mapInsert acc param ⟨param, none, tokens, true⟩)
  termination_by structural fuel tg l defMap acc => fuel

/-- Embedding of `Macro::resolve_pseudoargs` (src/preprocess.rs lines
171-188): the name literally, then (for a parenthesised call) the
re-tokenised and resolved argument text. -/
def resolve_pseudoargs : Nat → (Str → List PToken) → MacroInv →
    List (Str × Definition) → List Definition → Option (List PToken)
  | 0, _, _, _, _ => none
  | fuel + 1, tg, m, defMap, stack =>
    if m.arguments.isNone then some [PToken.regularToken m.name]
    else
      match resolve_all fuel tg (tg (m.original.drop m.name.length)) defMap stack with
      | none => none
      | some resolved => some (PToken.regularToken m.name :: resolved)
  termination_by structural fuel tg m defMap stack => fuel

/-- Embedding of `Macro::resolve` (src/preprocess.rs lines 190-214). -/
def macroResolve : Nat → (Str → List PToken) → MacroInv →
    List (Str × Definition) → List Definition → Option (List PToken)
  | 0, _, _, _, _ => none
  | fuel + 1, tg, m, defMap, stack =>
    match mapGet defMap m.name with
    | some d =>
      match defValue fuel tg d m.arguments defMap stack with
      | none => none
      | some (some tokens) =>
        if m.quoted then
          let (concatted, newlines) := tokenConcat tokens
          some [PToken.newlineToken ('"' :: (trimStr concatted ++ ['"'])) newlines]
        else some tokens
      | some none => resolve_pseudoargs fuel tg m defMap stack
    | none => resolve_pseudoargs fuel tg m defMap stack
  termination_by structural fuel tg m defMap stack => fuel

/-- Embedding of `Macro::resolve_all` (src/preprocess.rs lines
216-234). -/
def resolve_all : Nat → (Str → List PToken) → List PToken →
    List (Str × Definition) → List Definition → Option (List PToken)
  | 0, _, _, _, _ => none
  | _ + 1, _, [], _, _ => some []
  | fuel + 1, tg, t :: rest, defMap, stack =>
    match t with
    | .macroToken m =>
      match macroResolve fuel tg m defMap stack with
      | none => none
      | some r =>
        match resolve_all fuel tg rest defMap stack with
        | none => none
        | some rs => some (r ++ rs)
    | _ =>
      match resolve_all fuel tg rest defMap stack with
      | none => none
      | some rs => some (t :: rs)
  termination_by structural fuel tg ts defMap stack => fuel
end

mutual
/-- The line loop of `preprocess_rec` (src/preprocess.rs lines 386-492),
threading `original_lineno`, `level`, `level_true` and the definition
map, and returning the output text, the origin entries pushed, and the
final definition map. The `original_lineno += 1` that closes each loop
iteration is skipped by the `continue` on every suppressed line
(include, define, undef and token lines inside a false conditional). -/
def ppLines : Nat → (Str → List PToken) → (List Nat → Option (List PLine)) →
    List (Str × List Nat) → Option Str → List PLine → Nat → Nat → Nat →
    List (Str × Definition) →
    PResult (Str × List (Nat × Option Str) × List (Str × Definition))
  | 0, _, _, _, _, _, _, _, _, _ => .panicked
  | _ + 1, _, _, _, _, [], _, _, _, defMap => .ok ([], [], defMap)
  | fuel + 1, tg, g, fs, origin, line :: rest, lineno, level, levelTrue, defMap =>
    match line with
    | .directiveLine dir newlines =>
      let lineno1 := lineno + newlines
      match dir with
      | .includeDirective path =>
        if level > levelTrue then
          ppLines fuel tg g fs origin rest lineno1 level levelTrue defMap
        else
          match lookupFile fs path with
          | none => .err path
          | some content =>
            match preprocess_rec fuel tg g fs content (some path) defMap with
            | .ok (incOut, incInfo, defMap2) =>
              match ppLines fuel tg g fs origin rest (lineno1 + 1) level levelTrue defMap2 with
              | .ok (out, info, dm) => .ok (incOut ++ out, incInfo ++ info, dm)
              | .err m => .err m
              | .panicked => .panicked
            | .err m => .err m
            | .panicked => .panicked
      | .defineDirective d =>
        let lineno2 := lineno1 + tokenNewlineSum d.value
        if level > levelTrue then
          ppLines fuel tg g fs origin rest lineno2 level levelTrue defMap
        else
          ppLines fuel tg g fs origin rest (lineno2 + 1) level levelTrue
            (mapInsert defMap d.name d)
      | .undefDirective name =>
        if level > levelTrue then
          ppLines fuel tg g fs origin rest lineno1 level levelTrue defMap
        else
          ppLines fuel tg g fs origin rest (lineno1 + 1) level levelTrue
            (mapRemove defMap name)
      | .ifDefDirective name =>
        let levelTrue2 :=
          if levelTrue = level ∧ containsKey defMap name then levelTrue + 1
          else levelTrue
        ppLines fuel tg g fs origin rest (lineno1 + 1) (level + 1) levelTrue2 defMap
      | .ifNDefDirective name =>
        let levelTrue2 :=
          if levelTrue = level ∧ ¬ containsKey defMap name then levelTrue + 1
          else levelTrue
        ppLines fuel tg g fs origin rest (lineno1 + 1) (level + 1) levelTrue2 defMap
      | .elseDirective =>
        let levelTrue2 :=
          if levelTrue + 1 = level then level
          else if levelTrue = level then levelTrue - 1
          else levelTrue
        ppLines fuel tg g fs origin rest (lineno1 + 1) level levelTrue2 defMap
      | .endIfDirective =>
        if level = 0 then .panicked
        else
          let level2 := level - 1
          let levelTrue2 := if levelTrue > level2 then levelTrue - 1 else levelTrue
          ppLines fuel tg g fs origin rest (lineno1 + 1) level2 levelTrue2 defMap
    | .tokenLine tokens =>
      match resolve_all fuel tg tokens defMap [] with
      | none => .panicked
      | some resolved =>
        let (result0, newlines) := tokenConcat resolved
        let result1 := replaceCRLF result0
        let lineno1 := lineno + newlines
        let before := result1.length
        let result2 := removeCont result1
        if level > levelTrue then
          ppLines fuel tg g fs origin rest lineno1 level levelTrue defMap
        else
          match ppLines fuel tg g fs origin rest
              (lineno1 + (before - result2.length) / 2 + 1) level levelTrue defMap with
          | .ok (out, info, dm) =>
            .ok (result2 ++ '\n' :: out, (lineno1, origin) :: info, dm)
          | .err m => .err m
          | .panicked => .panicked
  termination_by structural fuel tg g fs origin lines lineno level levelTrue defMap => fuel

/-- Embedding of `preprocess_rec` (src/preprocess.rs lines 386-492):
parse the input with the file grammar, then run the line loop with a
fresh output and `original_lineno = 1`. -/
def preprocess_rec : Nat → (Str → List PToken) → (List Nat → Option (List PLine)) →
    List (Str × List Nat) → List Nat → Option Str → List (Str × Definition) →
    PResult (Str × List (Nat × Option Str) × List (Str × Definition))
  | 0, _, _, _, _, _, _ => .panicked
  | fuel + 1, tg, g, fs, input, origin, defMap =>
    match g input with
    | none => .err []
    | some lines => ppLines fuel tg g fs origin lines 1 0 0 defMap
  termination_by structural fuel tg g fs input origin defMap => fuel
end

/-- A UTF-8 continuation byte, which is not a character boundary. -/
def isContByte (b : Nat) : Bool := 0x80 ≤ b && b < 0xc0

/-- Embedding of `preprocess` (src/preprocess.rs lines 516-536): the
`input[..3]` slice taken for BOM stripping panics when the input is
shorter than 3 bytes or byte 3 is not a character boundary; otherwise a
UTF-8 BOM is stripped and `preprocess_rec` runs with an empty macro
environment. -/
def preprocess (fuel : Nat) (tg : Str → List PToken)
    (g : List Nat → Option (List PLine)) (fs : List (Str × List Nat))
    (input : List Nat) (origin : Option Str) :
    PResult (Str × List (Nat × Option Str)) :=
  if input.length < 3 then .panicked
  else if 3 < input.length ∧ isContByte (input.getD 3 0) then .panicked
  else
    let input2 := if input.take 3 = [0xef, 0xbb, 0xbf] then input.drop 3 else input
    match preprocess_rec fuel tg g fs input2 origin [] with
    | .ok (out, info, _) => .ok (out, info)
    | .err m => .err m
    | .panicked => .panicked

/-! ### Concrete grammar instances

The generated PEG grammar is absent from src/, so the parses of the
concrete inputs below are modelled from the spec (§4.1: directives at
line starts; non-directive lines tokenised into regular, macro, comment
and concat tokens; identifiers are potential macro invocations). -/

/-- A token grammar returning no tokens; the runs below never invoke it
(no function-like macro arguments appear in their inputs). -/
def tgEmpty : Str → List PToken := fun _ => []

/-- A file grammar accepting nothing. -/
def gEmpty : List Nat → Option (List PLine) := fun _ => none

/-- C10: for every input shorter than 3 bytes, `preprocess` panics at the
unguarded `input[..3]` slice used for BOM stripping instead of returning
`Ok` or `Err`. -/
theorem preprocess_short_input_panics (fuel : Nat) (tg : Str → List PToken)
    (g : List Nat → Option (List PLine)) (fs : List (Str × List Nat))
    (input : List Nat) (origin : Option Str) (h : input.length < 3) :
    preprocess fuel tg g fs input origin = .panicked := by
  rw [preprocess, if_pos h]

/-- C10 witness: the empty input. -/
theorem preprocess_short_input_panics_witness :
    ([] : List Nat).length < 3 ∧
      preprocess 1 tgEmpty gEmpty [] [] none = .panicked :=
  ⟨by decide, preprocess_short_input_panics 1 tgEmpty gEmpty [] [] none (by decide)⟩

/-- The bytes of `#ifdef FOO\nx\n`. -/
def c6aInput : List Nat := strBytes "#ifdef FOO\nx\n"

/-- Modelled from the spec: the generated file grammar's parse of
`#ifdef FOO\nx\n`. -/
def c6aLines : List PLine :=
  [.directiveLine (.ifDefDirective ['F', 'O', 'O']) 0,
   .tokenLine [.regularToken ['x']]]

/-- The bytes of `#endif\n`. -/
def c6bInput : List Nat := strBytes "#endif\n"

/-- Modelled from the spec: the generated file grammar's parse of
`#endif\n`. -/
def c6bLines : List PLine := [.directiveLine .endIfDirective 0]

/-- The modelled grammar for the two conditional test inputs. -/
def gC6 : List Nat → Option (List PLine) := fun bs =>
  if bs = c6aInput then some c6aLines
  else if bs = c6bInput then some c6bLines
  else none

/-- C6 counterexample: on `#ifdef FOO` with no matching `#endif` the
preprocessor succeeds silently (the open skipped region extends to end of
input; the `if level > 0` check at the loop's end is an empty
`@todo: complain` branch), instead of returning a structured error. -/
theorem unterminated_conditional_no_error :
    preprocess 10 tgEmpty gC6 [] c6aInput none = .ok ([], []) := by
  rfl

/-- C6 amended: an `#ifdef` with no matching `#endif` is silently
accepted (preprocess returns Ok, emitting nothing from the skipped
region), and an `#endif` with no open conditional panics at
`assert!(level > 0)` rather than returning a structured error. -/
theorem unterminated_conditional_behaviour :
    preprocess 10 tgEmpty gC6 [] c6aInput none = .ok ([], []) ∧
    preprocess 10 tgEmpty gC6 [] c6bInput none = .panicked := by
  constructor <;> rfl

/-- The bytes of `#define X X y\nX\n`. -/
def c4Input : List Nat := strBytes "#define X X y\nX\n"

/-- The potential macro invocation `X`. -/
def mX : MacroInv := ⟨['X'], none, ['X'], false⟩

/-- The potential macro invocation `y`. -/
def mY : MacroInv := ⟨['y'], none, ['y'], false⟩

/-- The definition `X := X y`, its body tokenised per spec §4.1. -/
def defX : Definition :=
  ⟨['X'], none, [.macroToken mX, .regularToken [' '], .macroToken mY], false⟩

/-- Modelled from the spec: the generated file grammar's parse of
`#define X X y\nX\n`. -/
def c4Lines : List PLine :=
  [.directiveLine (.defineDirective defX) 0, .tokenLine [.macroToken mX]]

/-- The modelled grammar for the self-recursion input. -/
def gC4 : List Nat → Option (List PLine) := fun bs =>
  if bs = c4Input then some c4Lines else none

/-- C4 counterexample: on `#define X X y` followed by `X`, the output
contains the text `y` twice, not once: the blocked inner `X` is replaced
by the whole definition body (unresolved) rather than by the bare name,
so the emitted line is `X y y`. -/
theorem self_recursion_single_y_false :
    (match preprocess 40 tgEmpty gC4 [] c4Input none with
      | .ok (out, _) => out.count 'y'
      | _ => 0) = 2 := by
  rfl

/-- C4 amended: for the input `#define X X y` followed by a line
containing only `X`, the preprocessor's output line is `X y y`: when the
inner `X` is found on the replacement stack, `Definition::value` returns
the definition body once more without resolving `X` in it, so `y`
appears twice and expansion terminates. -/
theorem self_recursion_blocker_output :
    preprocess 40 tgEmpty gC4 [] c4Input none =
      .ok (['X', ' ', 'y', ' ', 'y', '\n'], [(2, none)]) := by
  rfl


/-! ### C5: one origin entry per output newline

The spec's output-assembly contract (§4.1) produces one output line per
logical line; raw newline characters inside a logical line's token text
occur only in line continuations, i.e. directly after a backslash
(`\<LF>`) or after a backslash-CR pair (`\<CR><LF>`), which the
`replace("\r\n", "\n")` and `replace("\\\n", "")` passes of the loop
normalise away. The grammar (absent from src/) therefore hands the line
loop tokens whose text satisfies that shape — the guarantee enters as
the `TokOK`/`LineOK` hypotheses on the grammar parameters below. -/

/-- Newlines of `s` occur only inside line continuations: every `LF` is
directly preceded by a backslash or by a backslash-CR pair. -/
def contOk : Str → Bool
  | [] => true
  | [c] => decide (c ≠ '\n')
  | [c, c2] =>
    if c = '\\' ∧ c2 = '\n' then true
    else decide (c ≠ '\n') && contOk [c2]
  | c :: c2 :: c3 :: rest =>
    if c = '\\' ∧ c2 = '\n' then contOk (c3 :: rest)
    else if c = '\\' ∧ c2 = '\r' ∧ c3 = '\n' then contOk rest
    else decide (c ≠ '\n') && contOk (c2 :: c3 :: rest)

theorem contOk_one (c : Char) : contOk [c] = decide (c ≠ '\n') := rfl

theorem contOk_two (c c2 : Char) : contOk [c, c2] =
    if c = '\\' ∧ c2 = '\n' then true
    else decide (c ≠ '\n') && contOk [c2] := rfl

theorem contOk_cons3 (c c2 c3 : Char) (rest : Str) : contOk (c :: c2 :: c3 :: rest) =
    if c = '\\' ∧ c2 = '\n' then contOk (c3 :: rest)
    else if c = '\\' ∧ c2 = '\r' ∧ c3 = '\n' then contOk rest
    else decide (c ≠ '\n') && contOk (c2 :: c3 :: rest) := rfl

theorem contOk_head_ne {c : Char} {rest : Str} (h : contOk (c :: rest) = true) :
    c ≠ '\n' := by
  match rest with
  | [] =>
    rw [contOk_one] at h
    exact of_decide_eq_true h
  | [c2] =>
    rw [contOk_two] at h
    split at h
    · rename_i hp
      rw [hp.1]
      decide
    · exact of_decide_eq_true ((Bool.and_eq_true _ _).mp h).1
  | c2 :: c3 :: r =>
    rw [contOk_cons3] at h
    split at h
    · rename_i hp
      rw [hp.1]
      decide
    · split at h
      · rename_i hp
        rw [hp.1]
        decide
      · exact of_decide_eq_true ((Bool.and_eq_true _ _).mp h).1

theorem contOk_tail {c : Char} {rest : Str} (h : contOk (c :: rest) = true)
    (hc : c ≠ '\\') : contOk rest = true := by
  match rest with
  | [] => rfl
  | [c2] =>
    rw [contOk_two] at h
    split at h
    · rename_i hp
      exact absurd hp.1 hc
    · exact ((Bool.and_eq_true _ _).mp h).2
  | c2 :: c3 :: r =>
    rw [contOk_cons3] at h
    split at h
    · rename_i hp
      exact absurd hp.1 hc
    · split at h
      · rename_i hp
        exact absurd hp.1 hc
      · exact ((Bool.and_eq_true _ _).mp h).2

theorem replaceCRLF_two (c c2 : Char) (rest : Str) : replaceCRLF (c :: c2 :: rest) =
    if c = '\r' ∧ c2 = '\n' then '\n' :: replaceCRLF rest
    else c :: replaceCRLF (c2 :: rest) := rfl

theorem removeCont_two (c c2 : Char) (rest : Str) : removeCont (c :: c2 :: rest) =
    if c = '\\' ∧ c2 = '\n' then removeCont rest
    else c :: removeCont (c2 :: rest) := rfl

theorem replaceCRLF_cons (c : Char) (rest : Str)
    (h : ¬ (c = '\r' ∧ rest.head? = some '\n')) :
    replaceCRLF (c :: rest) = c :: replaceCRLF rest := by
  match rest with
  | [] => rfl
  | c2 :: r =>
    rw [replaceCRLF_two, if_neg]
    rintro ⟨h1, h2⟩
    exact h ⟨h1, by rw [List.head?_cons, h2]⟩

theorem removeCont_cons (c : Char) (rest : Str)
    (h : ¬ (c = '\\' ∧ rest.head? = some '\n')) :
    removeCont (c :: rest) = c :: removeCont rest := by
  match rest with
  | [] => rfl
  | c2 :: r =>
    rw [removeCont_two, if_neg]
    rintro ⟨h1, h2⟩
    exact h ⟨h1, by rw [List.head?_cons, h2]⟩

theorem removeCont_pair (rest : Str) :
    removeCont ('\\' :: '\n' :: rest) = removeCont rest := by
  rw [removeCont_two, if_pos ⟨rfl, rfl⟩]

theorem replaceCRLF_head {s : Str} (h : contOk s = true) :
    (replaceCRLF s).head? ≠ some '\n' := by
  match s with
  | [] =>
    intro hh
    simp [replaceCRLF] at hh
  | [c] =>
    intro hh
    rw [show replaceCRLF [c] = [c] from rfl, List.head?_cons] at hh
    exact contOk_head_ne h (Option.some.inj hh)
  | c :: c2 :: r =>
    intro hh
    rw [replaceCRLF_two] at hh
    split at hh
    · rename_i hp
      have hc2 : contOk (c2 :: r) = true := contOk_tail h (by rw [hp.1]; decide)
      exact contOk_head_ne hc2 hp.2
    · rw [List.head?_cons] at hh
      exact contOk_head_ne h (Option.some.inj hh)

/-- Under the continuation shape, the `replace("\r\n","\n")` pass
followed by the `replace("\\\n","")` pass leaves no newline: exactly the
mechanism `preprocess_rec` uses to keep each emitted line on one output
line. -/
theorem contOk_removeCont : ∀ (n : Nat) (s : Str), s.length ≤ n →
    contOk s = true → '\n' ∉ removeCont (replaceCRLF s) := by
  intro n
  induction n with
  | zero =>
    intro s hlen _
    have hs : s = [] := List.length_eq_zero.mp (Nat.le_zero.mp hlen)
    subst hs
    simp [replaceCRLF, removeCont]
  | succ k ih =>
    intro s hlen h
    match s with
    | [] => simp [replaceCRLF, removeCont]
    | [c] =>
      have hc := contOk_head_ne h
      intro hmem
      rw [show replaceCRLF [c] = [c] from rfl, show removeCont [c] = [c] from rfl,
        List.mem_singleton] at hmem
      exact hc hmem.symm
    | [c, c2] =>
      rw [contOk_two] at h
      split at h
      · rename_i hp
        obtain ⟨h1, h2⟩ := hp
        subst h1
        subst h2
        decide
      · rename_i hp
        have hand := (Bool.and_eq_true _ _).mp h
        have hc : c ≠ '\n' := of_decide_eq_true hand.1
        have hc2 : c2 ≠ '\n' := by
          have h2 := hand.2
          rw [contOk_one] at h2
          exact of_decide_eq_true h2
        intro hmem
        rw [replaceCRLF_two, if_neg (fun hq => hc2 hq.2),
          show replaceCRLF [c2] = [c2] from rfl,
          removeCont_two, if_neg hp,
          show removeCont [c2] = [c2] from rfl] at hmem
        rcases List.mem_cons.mp hmem with h1 | h1
        · exact hc h1.symm
        · rw [List.mem_singleton] at h1
          exact hc2 h1.symm
    | c :: c2 :: c3 :: r =>
      rw [contOk_cons3] at h
      split at h
      · rename_i hp
        obtain ⟨h1, h2⟩ := hp
        subst h1
        subst h2
        intro hmem
        rw [replaceCRLF_two, if_neg (fun hq => absurd hq.1 (by decide))] at hmem
        rw [replaceCRLF_two, if_neg (fun hq => absurd hq.1 (by decide))] at hmem
        rw [removeCont_pair] at hmem
        exact ih (c3 :: r) (by simp at hlen ⊢; omega) h hmem
      · split at h
        · rename_i hp
          obtain ⟨h1, h2, h3⟩ := hp
          subst h1
          subst h2
          subst h3
          intro hmem
          rw [replaceCRLF_two, if_neg (fun hq => absurd hq.1 (by decide))] at hmem
          rw [replaceCRLF_two, if_pos ⟨rfl, rfl⟩] at hmem
          rw [removeCont_pair] at hmem
          exact ih r (by simp at hlen ⊢; omega) h hmem
        · rename_i hpA hpB
          have hand := (Bool.and_eq_true _ _).mp h
          have hc : c ≠ '\n' := of_decide_eq_true hand.1
          have htail : contOk (c2 :: c3 :: r) = true := hand.2
          have hc2 : c2 ≠ '\n' := contOk_head_ne htail
          intro hmem
          rw [replaceCRLF_cons c (c2 :: c3 :: r)
            (fun hq => hc2 (Option.some.inj hq.2))] at hmem
          rw [removeCont_cons c (replaceCRLF (c2 :: c3 :: r))
            (fun hq => replaceCRLF_head htail hq.2)] at hmem
          rcases List.mem_cons.mp hmem with h1 | h1
          · exact hc h1.symm
          · exact ih (c2 :: c3 :: r) (by simp at hlen ⊢; omega) htail h1

theorem contOk_append : ∀ (n : Nat) (s t : Str), s.length ≤ n →
    contOk s = true → contOk t = true → contOk (s ++ t) = true := by
  intro n
  induction n with
  | zero =>
    intro s t hlen _ ht
    have hs : s = [] := List.length_eq_zero.mp (Nat.le_zero.mp hlen)
    subst hs
    exact ht
  | succ k ih =>
    intro s t hlen hs ht
    match s with
    | [] => exact ht
    | [c] =>
      rw [contOk_one] at hs
      have hc : c ≠ '\n' := of_decide_eq_true hs
      match t with
      | [] =>
        rw [show ([c] ++ ([] : Str)) = [c] from rfl, contOk_one]
        exact decide_eq_true hc
      | [t1] =>
        rw [show ([c] ++ [t1] : Str) = [c, t1] from rfl, contOk_two]
        split
        · rfl
        · rw [Bool.and_eq_true]
          exact ⟨decide_eq_true hc, ht⟩
      | t1 :: t2 :: tr =>
        rw [show ([c] ++ (t1 :: t2 :: tr) : Str) = c :: t1 :: t2 :: tr from rfl,
          contOk_cons3]
        split
        · rename_i hp
          exact absurd hp.2 (contOk_head_ne ht)
        · split
          · rename_i hp
            have h2 : contOk (t2 :: tr) = true := contOk_tail ht (by rw [hp.2.1]; decide)
            exact absurd hp.2.2 (contOk_head_ne h2)
          · rw [Bool.and_eq_true]
            exact ⟨decide_eq_true hc, ht⟩
    | [c, c2] =>
      rw [contOk_two] at hs
      split at hs
      · rename_i hp
        obtain ⟨h1, h2⟩ := hp
        subst h1
        subst h2
        match t with
        | [] => decide
        | t1 :: tr =>
          rw [show (['\\', '\n'] ++ (t1 :: tr) : Str) = '\\' :: '\n' :: t1 :: tr from rfl,
            contOk_cons3, if_pos ⟨rfl, rfl⟩]
          exact ht
      · rename_i hp
        have hand := (Bool.and_eq_true _ _).mp hs
        have hc : c ≠ '\n' := of_decide_eq_true hand.1
        match t with
        | [] =>
          rw [show ([c, c2] ++ ([] : Str)) = [c, c2] from rfl, contOk_two, if_neg hp,
            Bool.and_eq_true]
          exact ⟨decide_eq_true hc, hand.2⟩
        | t1 :: tr =>
          rw [show ([c, c2] ++ (t1 :: tr) : Str) = c :: c2 :: t1 :: tr from rfl,
            contOk_cons3]
          split
          · rename_i hq
            exact absurd hq hp
          · split
            · rename_i hq
              exact absurd hq.2.2 (contOk_head_ne ht)
            · rw [Bool.and_eq_true]
              refine ⟨decide_eq_true hc, ?_⟩
              exact ih [c2] (t1 :: tr) (by simp at hlen ⊢; omega) hand.2 ht
    | c :: c2 :: c3 :: r =>
      rw [contOk_cons3] at hs
      rw [show ((c :: c2 :: c3 :: r) ++ t : Str) = c :: c2 :: c3 :: (r ++ t) from rfl,
        contOk_cons3]
      split at hs
      · rename_i hp
        rw [if_pos hp]
        exact ih (c3 :: r) t (by simp at hlen ⊢; omega) hs ht
      · rename_i hp1
        split at hs
        · rename_i hp2
          rw [if_neg hp1, if_pos hp2]
          exact ih r t (by simp at hlen ⊢; omega) hs ht
        · rename_i hp2
          rw [if_neg hp1, if_neg hp2, Bool.and_eq_true]
          have hand := (Bool.and_eq_true _ _).mp hs
          exact ⟨hand.1, ih (c2 :: c3 :: r) t (by simp at hlen ⊢; omega) hand.2 ht⟩

theorem contOk_left : ∀ (n : Nat) (s t : Str), s.length ≤ n →
    contOk (s ++ t) = true → contOk s = true := by
  intro n
  induction n with
  | zero =>
    intro s t hlen _
    have hs : s = [] := List.length_eq_zero.mp (Nat.le_zero.mp hlen)
    subst hs
    rfl
  | succ k ih =>
    intro s t hlen h
    match s with
    | [] => rfl
    | [c] =>
      rw [contOk_one]
      exact decide_eq_true (contOk_head_ne (show contOk (c :: t) = true from h))
    | [c, c2] =>
      rw [contOk_two]
      split
      · rfl
      · rename_i hp
        rw [Bool.and_eq_true]
        refine ⟨decide_eq_true (contOk_head_ne
          (show contOk (c :: c2 :: t) = true from h)), ?_⟩
        match t with
        | [] =>
          have hq : contOk [c, c2] = true := h
          rw [contOk_two, if_neg hp, Bool.and_eq_true] at hq
          exact hq.2
        | t1 :: tr =>
          have hq : contOk (c :: c2 :: t1 :: tr) = true := h
          rw [contOk_cons3, if_neg hp] at hq
          split at hq
          · rename_i hq2
            rw [hq2.2.1, contOk_one]
            decide
          · rw [Bool.and_eq_true] at hq
            exact ih [c2] (t1 :: tr) (by simp at hlen ⊢; omega) hq.2
    | c :: c2 :: c3 :: r =>
      have hq : contOk (c :: c2 :: c3 :: (r ++ t)) = true := h
      rw [contOk_cons3]
      rw [contOk_cons3] at hq
      split at hq
      · rename_i hp
        rw [if_pos hp]
        exact ih (c3 :: r) t (by simp at hlen ⊢; omega) hq
      · rename_i hp1
        split at hq
        · rename_i hp2
          rw [if_neg hp1, if_pos hp2]
          exact ih r t (by simp at hlen ⊢; omega) hq
        · rename_i hp2
          rw [if_neg hp1, if_neg hp2, Bool.and_eq_true]
          rw [Bool.and_eq_true] at hq
          exact ⟨hq.1, ih (c2 :: c3 :: r) t (by simp at hlen ⊢; omega) hq.2⟩

theorem contOk_dropWhile : ∀ (n : Nat) (s : Str), s.length ≤ n →
    contOk s = true → contOk (s.dropWhile isWS) = true := by
  intro n
  induction n with
  | zero =>
    intro s hlen _
    have hs : s = [] := List.length_eq_zero.mp (Nat.le_zero.mp hlen)
    subst hs
    rfl
  | succ k ih =>
    intro s hlen h
    match s with
    | [] => rfl
    | c :: rest =>
      rw [List.dropWhile_cons]
      split
      · rename_i hws
        have hcbs : c ≠ '\\' := by
          intro hc
          rw [hc] at hws
          exact absurd hws (by decide)
        exact ih rest (by simp at hlen ⊢; omega) (contOk_tail h hcbs)
      · exact h

theorem contOk_trimStr {s : Str} (h : contOk s = true) :
    contOk (trimStr s) = true := by
  have h1 : contOk (s.dropWhile isWS) = true :=
    contOk_dropWhile s.length s le_rfl h
  rw [trimStr]
  have hu : (List.dropWhile isWS (s.dropWhile isWS).reverse).reverse ++
      (List.takeWhile isWS (s.dropWhile isWS).reverse).reverse = s.dropWhile isWS := by
    rw [← List.reverse_append, List.takeWhile_append_dropWhile, List.reverse_reverse]
  exact contOk_left (List.dropWhile isWS (s.dropWhile isWS).reverse).reverse.length
    (List.dropWhile isWS (s.dropWhile isWS).reverse).reverse
    (List.takeWhile isWS (s.dropWhile isWS).reverse).reverse le_rfl
    (by rw [hu]; exact h1)

theorem contOk_quote {s : Str} (h : contOk s = true) :
    contOk ('"' :: (trimStr s ++ ['"'])) = true := by
  have h1 : contOk (trimStr s) = true := contOk_trimStr h
  have h2 : contOk (trimStr s ++ ['"']) = true :=
    contOk_append (trimStr s).length (trimStr s) ['"'] le_rfl h1 (by decide)
  exact contOk_append 1 ['"'] (trimStr s ++ ['"']) le_rfl (by decide) h2

/-- A token whose emitted text keeps newlines inside line continuations
(`\<LF>` or `\<CR><LF>`), the shape the spec guarantees for parsed
tokens of one logical line. -/
def TokOK : PToken → Prop
  | .regularToken s => contOk s = true
  | .newlineToken s _ => contOk s = true
  | .macroToken m => contOk m.original = true ∧ contOk m.name = true
  | .commentToken _ => True
  | .concatTok => True

/-- All body tokens of a definition satisfy the continuation shape. -/
def DefOK (d : Definition) : Prop := ∀ t ∈ d.value, TokOK t

/-- All definitions of a macro environment satisfy the continuation
shape. -/
def MapOK (m : List (Str × Definition)) : Prop := ∀ kv ∈ m, DefOK kv.2

/-- All tokens of a parsed line satisfy the continuation shape. -/
def LineOK : PLine → Prop
  | .tokenLine ts => ∀ t ∈ ts, TokOK t
  | .directiveLine (.defineDirective d) _ => DefOK d
  | .directiveLine _ _ => True

/-- The token grammar only produces tokens of the continuation shape. -/
def TgOK (tg : Str → List PToken) : Prop := ∀ s, ∀ t ∈ tg s, TokOK t

/-- The file grammar only produces lines of the continuation shape. -/
def GOK (g : List Nat → Option (List PLine)) : Prop :=
  ∀ bs ls, g bs = some ls → ∀ l ∈ ls, LineOK l

theorem mapGet_ok : ∀ {m : List (Str × Definition)} {k : Str} {d : Definition},
    MapOK m → mapGet m k = some d → DefOK d := by
  intro m
  induction m with
  | nil =>
    intro k d _ h
    simp [mapGet] at h
  | cons kv rest ih =>
    intro k d hm h
    obtain ⟨k0, v⟩ := kv
    rw [mapGet] at h
    by_cases hk : k0 = k
    · rw [if_pos hk] at h
      injection h with h2
      subst h2
      exact hm (k0, v) (List.mem_cons_self _ _)
    · rw [if_neg hk] at h
      exact ih (fun x hx => hm x (List.mem_cons_of_mem _ hx)) h

theorem mapRemove_ok {m : List (Str × Definition)} {k : Str} (hm : MapOK m) :
    MapOK (mapRemove m k) := by
  intro kv hkv
  exact hm kv (List.mem_of_mem_filter hkv)

theorem mapInsert_ok {m : List (Str × Definition)} {k : Str} {d : Definition}
    (hm : MapOK m) (hd : DefOK d) : MapOK (mapInsert m k d) := by
  intro kv hkv
  rcases List.mem_cons.mp hkv with h | h
  · rw [h]
    exact hd
  · exact mapRemove_ok hm kv h

theorem tokenConcat_contOk : ∀ ts : List PToken, (∀ t ∈ ts, TokOK t) →
    contOk (tokenConcat ts).1 = true := by
  intro ts
  induction ts with
  | nil =>
    intro _
    rfl
  | cons t rest ih =>
    intro h
    have hrest := ih (fun x hx => h x (List.mem_cons_of_mem t hx))
    have ht := h t (List.mem_cons_self t rest)
    rcases hsn : tokenConcat rest with ⟨s, n⟩
    rw [hsn] at hrest
    cases t with
    | regularToken r =>
      rw [tokenConcat, hsn]
      exact contOk_append r.length r s le_rfl ht hrest
    | newlineToken r k =>
      rw [tokenConcat, hsn]
      exact contOk_append r.length r s le_rfl ht hrest
    | macroToken m =>
      rw [tokenConcat, hsn]
      exact contOk_append m.original.length m.original s le_rfl ht.1 hrest
    | commentToken k =>
      rw [tokenConcat, hsn]
      exact hrest
    | concatTok =>
      rw [tokenConcat, hsn]
      exact hrest

/-- The continuation shape is preserved by the whole macro-resolution
family: `defValue`, `buildLocalMap`, `resolve_pseudoargs`,
`macroResolve` and `resolve_all`. -/
theorem resolve_preserve : ∀ (fuel : Nat) (tg : Str → List PToken), TgOK tg →
    (∀ d args defMap stack r, MapOK defMap → DefOK d →
      defValue fuel tg d args defMap stack = some (some r) → ∀ t ∈ r, TokOK t) ∧
    (∀ ps defMap acc r, MapOK defMap → MapOK acc →
      buildLocalMap fuel tg ps defMap acc = some r → MapOK r) ∧
    (∀ m defMap stack r, MapOK defMap → contOk m.name = true →
      resolve_pseudoargs fuel tg m defMap stack = some r → ∀ t ∈ r, TokOK t) ∧
    (∀ m defMap stack r, MapOK defMap → TokOK (.macroToken m) →
      macroResolve fuel tg m defMap stack = some r → ∀ t ∈ r, TokOK t) ∧
    (∀ ts defMap stack r, MapOK defMap → (∀ t ∈ ts, TokOK t) →
      resolve_all fuel tg ts defMap stack = some r → ∀ t ∈ r, TokOK t) := by
  intro fuel
  induction fuel with
  | zero =>
    intro tg _
    refine ⟨?_, ?_, ?_, ?_, ?_⟩
    · intro d args defMap stack r _ _ h
      simp [defValue] at h
    · intro ps defMap acc r _ _ h
      simp [buildLocalMap] at h
    · intro m defMap stack r _ _ h
      simp [resolve_pseudoargs] at h
    · intro m defMap stack r _ _ h
      simp [macroResolve] at h
    · intro ts defMap stack r _ _ h
      simp [resolve_all] at h
  | succ f ih =>
    intro tg htg
    obtain ⟨ihDV, ihBL, ihPA, ihMR, ihRA⟩ := ih tg htg
    have hDV : ∀ d args defMap stack r, MapOK defMap → DefOK d →
        defValue (f + 1) tg d args defMap stack = some (some r) →
        ∀ t ∈ r, TokOK t := by
      intro d args defMap stack r hmap hdef h
      simp only [defValue] at h
      split at h
      · simp at h
      · split at h
        · simp only [Option.some.injEq] at h
          subst h
          exact hdef
        · split at h
          · rcases hra : resolve_all f tg d.value defMap (stack ++ [d]) with _ | r2 <;>
              rw [hra] at h
            · simp at h
            · simp only [Option.map_some', Option.some.injEq] at h
              subst h
              exact ihRA d.value defMap (stack ++ [d]) r2 hmap hdef hra
          · split at h
            · simp at h
            · rename_i lm hbl
              have hlm : MapOK lm := ihBL _ defMap defMap lm hmap hmap hbl
              rcases hra : resolve_all f tg d.value lm (stack ++ [d]) with _ | r2 <;>
                rw [hra] at h
              · simp at h
              · simp only [Option.map_some', Option.some.injEq] at h
                subst h
                exact ihRA d.value lm (stack ++ [d]) r2 hlm hdef hra
    have hBL : ∀ ps defMap acc r, MapOK defMap → MapOK acc →
        buildLocalMap (f + 1) tg ps defMap acc = some r → MapOK r := by
      intro ps defMap acc r hmap hacc h
      match ps with
      | [] =>
        simp only [buildLocalMap, Option.some.injEq] at h
        subst h
        exact hacc
      | (param, arg) :: rest =>
        simp only [buildLocalMap] at h
        split at h
        · simp at h
        · rename_i tokens hra
          have htok : ∀ t ∈ tokens, TokOK t :=
            ihRA (tg arg) defMap [] tokens hmap (htg arg) hra
          have hdef : DefOK ⟨param, none, tokens, true⟩ := htok
          exact ihBL rest defMap _ r hmap (mapInsert_ok hacc hdef) h
    have hPA : ∀ m defMap stack r, MapOK defMap → contOk m.name = true →
        resolve_pseudoargs (f + 1) tg m defMap stack = some r →
        ∀ t ∈ r, TokOK t := by
      intro m defMap stack r hmap hname h
      simp only [resolve_pseudoargs] at h
      split at h
      · simp only [Option.some.injEq] at h
        subst h
        intro t ht
        rw [List.mem_singleton] at ht
        subst ht
        exact hname
      · split at h
        · simp at h
        · rename_i resolved hra
          simp only [Option.some.injEq] at h
          subst h
          intro t ht
          rcases List.mem_cons.mp ht with rfl | ht2
          · exact hname
          · exact ihRA _ defMap stack resolved hmap (htg _) hra t ht2
    have hMR : ∀ m defMap stack r, MapOK defMap → TokOK (.macroToken m) →
        macroResolve (f + 1) tg m defMap stack = some r → ∀ t ∈ r, TokOK t := by
      intro m defMap stack r hmap hm h
      have hmname : contOk m.name = true := hm.2
      simp only [macroResolve] at h
      split at h
      · rename_i d hd
        have hdef : DefOK d := mapGet_ok hmap hd
        split at h
        · simp at h
        · rename_i tokens hdv
          have htokens : ∀ t ∈ tokens, TokOK t :=
            ihDV d m.arguments defMap stack tokens hmap hdef hdv
          split at h
          · rcases hc : tokenConcat tokens with ⟨concatted, newlines⟩
            rw [hc] at h
            simp only [Option.some.injEq] at h
            subst h
            intro t ht
            rw [List.mem_singleton] at ht
            subst ht
            have hcc : contOk concatted = true := by
              have h0 := tokenConcat_contOk tokens htokens
              rw [hc] at h0
              exact h0
            exact contOk_quote hcc
          · simp only [Option.some.injEq] at h
            subst h
            exact htokens
        · rename_i hdv
          exact ihPA m defMap stack r hmap hmname h
      · rename_i hd
        exact ihPA m defMap stack r hmap hmname h
    have hRA : ∀ ts defMap stack r, MapOK defMap → (∀ t ∈ ts, TokOK t) →
        resolve_all (f + 1) tg ts defMap stack = some r → ∀ t ∈ r, TokOK t := by
      intro ts defMap stack r hmap hts h
      match ts with
      | [] =>
        simp only [resolve_all, Option.some.injEq] at h
        subst h
        intro t ht
        simp at ht
      | t0 :: rest =>
        have ht0 : TokOK t0 := hts t0 (List.mem_cons_self _ _)
        have hrest : ∀ t ∈ rest, TokOK t := fun t htx => hts t (List.mem_cons_of_mem _ htx)
        cases t0 with
        | macroToken m =>
          simp only [resolve_all] at h
          split at h
          · simp at h
          · rename_i rr heqm
            split at h
            · simp at h
            · rename_i rs heqr
              simp only [Option.some.injEq] at h
              subst h
              intro t ht
              rcases List.mem_append.mp ht with h1 | h1
              · exact ihMR m defMap stack rr hmap ht0 heqm t h1
              · exact ihRA rest defMap stack rs hmap hrest heqr t h1
        | regularToken s =>
          simp only [resolve_all] at h
          split at h
          · simp at h
          · rename_i rs heqr
            simp only [Option.some.injEq] at h
            subst h
            intro t ht
            rcases List.mem_cons.mp ht with rfl | h1
            · exact ht0
            · exact ihRA rest defMap stack rs hmap hrest heqr t h1
        | newlineToken s n =>
          simp only [resolve_all] at h
          split at h
          · simp at h
          · rename_i rs heqr
            simp only [Option.some.injEq] at h
            subst h
            intro t ht
            rcases List.mem_cons.mp ht with rfl | h1
            · exact ht0
            · exact ihRA rest defMap stack rs hmap hrest heqr t h1
        | commentToken n =>
          simp only [resolve_all] at h
          split at h
          · simp at h
          · rename_i rs heqr
            simp only [Option.some.injEq] at h
            subst h
            intro t ht
            rcases List.mem_cons.mp ht with rfl | h1
            · exact ht0
            · exact ihRA rest defMap stack rs hmap hrest heqr t h1
        | concatTok =>
          simp only [resolve_all] at h
          split at h
          · simp at h
          · rename_i rs heqr
            simp only [Option.some.injEq] at h
            subst h
            intro t ht
            rcases List.mem_cons.mp ht with rfl | h1
            · exact ht0
            · exact ihRA rest defMap stack rs hmap hrest heqr t h1
    exact ⟨hDV, hBL, hPA, hMR, hRA⟩

theorem countNl_append (a b : Str) : countNl (a ++ b) = countNl a + countNl b := by
  simp [countNl, List.count_append]

/-- Bookkeeping invariant of the preprocessor loop: a successful run
pushes exactly one origin entry per output newline, and the definition
map keeps the continuation shape. -/
theorem ppLines_ok : ∀ (fuel : Nat) (tg : Str → List PToken)
    (g : List Nat → Option (List PLine)) (fs : List (Str × List Nat)),
    TgOK tg → GOK g →
    ((∀ origin lines lineno level levelTrue defMap out info dm,
        MapOK defMap → (∀ l ∈ lines, LineOK l) →
        ppLines fuel tg g fs origin lines lineno level levelTrue defMap =
          .ok (out, info, dm) →
        info.length = countNl out ∧ MapOK dm) ∧
      (∀ input origin defMap out info dm, MapOK defMap →
        preprocess_rec fuel tg g fs input origin defMap = .ok (out, info, dm) →
        info.length = countNl out ∧ MapOK dm)) := by
  intro fuel
  induction fuel with
  | zero =>
    intro tg g fs _ _
    constructor
    · intro origin lines lineno level levelTrue defMap out info dm _ _ h
      simp [ppLines] at h
    · intro input origin defMap out info dm _ h
      simp [preprocess_rec] at h
  | succ f ih =>
    intro tg g fs htg hg
    obtain ⟨ihL, ihR⟩ := ih tg g fs htg hg
    have hResolve := (resolve_preserve f tg htg).2.2.2.2
    constructor
    · intro origin lines lineno level levelTrue defMap out info dm hmap hlines h
      match lines with
      | [] =>
        simp only [ppLines, PResult.ok.injEq, Prod.mk.injEq] at h
        obtain ⟨h1, h2, h3⟩ := h
        subst h1
        subst h2
        subst h3
        exact ⟨rfl, hmap⟩
      | line :: rest =>
        have hline : LineOK line := hlines line (List.mem_cons_self _ _)
        have hrest : ∀ l ∈ rest, LineOK l :=
          fun l hl => hlines l (List.mem_cons_of_mem _ hl)
        cases line with
        | directiveLine dir newlines =>
          cases dir with
          | includeDirective path =>
            simp only [ppLines] at h
            split at h
            · exact ihL origin rest _ level levelTrue defMap out info dm hmap hrest h
            · split at h
              · simp at h
              · rename_i content hcontent
                split at h
                · rename_i incOut incInfo defMap2 hinc
                  split at h
                  · rename_i out2 info2 dm2 hrec
                    have hi := ihR content (some path) defMap incOut incInfo defMap2
                      hmap hinc
                    have hr := ihL origin rest _ level levelTrue defMap2 out2 info2 dm2
                      hi.2 hrest hrec
                    simp only [PResult.ok.injEq, Prod.mk.injEq] at h
                    obtain ⟨h1, h2, h3⟩ := h
                    subst h1
                    subst h2
                    subst h3
                    refine ⟨?_, hr.2⟩
                    rw [List.length_append, countNl_append, hi.1, hr.1]
                  · simp at h
                  · simp at h
                · simp at h
                · simp at h
          | defineDirective d =>
            simp only [ppLines] at h
            split at h
            · exact ihL origin rest _ level levelTrue defMap out info dm hmap hrest h
            · exact ihL origin rest _ level levelTrue _ out info dm
                (mapInsert_ok hmap (show DefOK d from hline)) hrest h
          | undefDirective name =>
            simp only [ppLines] at h
            split at h
            · exact ihL origin rest _ level levelTrue defMap out info dm hmap hrest h
            · exact ihL origin rest _ level levelTrue _ out info dm
                (mapRemove_ok hmap) hrest h
          | ifDefDirective name =>
            simp only [ppLines] at h
            exact ihL origin rest _ _ _ defMap out info dm hmap hrest h
          | ifNDefDirective name =>
            simp only [ppLines] at h
            exact ihL origin rest _ _ _ defMap out info dm hmap hrest h
          | elseDirective =>
            simp only [ppLines] at h
            exact ihL origin rest _ _ _ defMap out info dm hmap hrest h
          | endIfDirective =>
            simp only [ppLines] at h
            split at h
            · simp at h
            · exact ihL origin rest _ _ _ defMap out info dm hmap hrest h
        | tokenLine tokens =>
          simp only [ppLines] at h
          split at h
          · simp at h
          · rename_i resolved hres
            have hrtok : ∀ t ∈ resolved, TokOK t :=
              hResolve tokens defMap [] resolved hmap
                (show ∀ t ∈ tokens, TokOK t from hline) hres
            rcases hc : tokenConcat resolved with ⟨result0, newlines⟩
            rw [hc] at h
            dsimp only [] at h
            split at h
            · exact ihL origin rest _ level levelTrue defMap out info dm hmap hrest h
            · split at h
              · rename_i out2 info2 dm2 hrec
                have hr := ihL origin rest _ level levelTrue defMap out2 info2 dm2
                  hmap hrest hrec
                have hck : contOk result0 = true := by
                  have h0 := tokenConcat_contOk resolved hrtok
                  rw [hc] at h0
                  exact h0
                have hstrip : '\n' ∉ removeCont (replaceCRLF result0) :=
                  contOk_removeCont result0.length result0 le_rfl hck
                simp only [PResult.ok.injEq, Prod.mk.injEq] at h
                obtain ⟨h1, h2, h3⟩ := h
                subst h1
                subst h2
                subst h3
                refine ⟨?_, hr.2⟩
                rw [List.length_cons, countNl_append, hr.1]
                have hz : countNl (removeCont (replaceCRLF result0)) = 0 :=
                  List.count_eq_zero.mpr hstrip
                have hcons : countNl ('\n' :: out2) = countNl out2 + 1 :=
                  List.count_cons_self '\n' out2
                omega
              · simp at h
              · simp at h
    · intro input origin defMap out info dm hmap h
      simp only [preprocess_rec] at h
      split at h
      · simp at h
      · rename_i ls hls
        exact ihL origin ls 1 0 0 defMap out info dm hmap (hg input ls hls) h

/-- C5: for every input, filesystem and macro environment on which
`preprocess` succeeds — with the token and file grammars satisfying the
spec's guarantee that a logical line's token text keeps raw newlines
inside line continuations (`TgOK`, `GOK`) — the returned line-origin
list has exactly one entry per newline character of the preprocessed
output: each emitted logical line contributes exactly one origin entry
and exactly one newline. -/
theorem preprocess_line_origins (fuel : Nat) (tg : Str → List PToken)
    (g : List Nat → Option (List PLine)) (fs : List (Str × List Nat))
    (input : List Nat) (origin : Option Str) (out : Str)
    (info : List (Nat × Option Str)) (htg : TgOK tg) (hg : GOK g)
    (h : preprocess fuel tg g fs input origin = .ok (out, info)) :
    info.length = countNl out := by
  simp only [preprocess] at h
  split at h
  · simp at h
  · split at h
    · simp at h
    · split at h
      · rename_i out2 info2 dm2 hrec
        simp only [PResult.ok.injEq, Prod.mk.injEq] at h
        obtain ⟨h1, h2⟩ := h
        subst h1
        subst h2
        exact ((ppLines_ok fuel tg g fs htg hg).2 _ origin [] out2 info2 dm2
          (fun kv hkv => absurd hkv (List.not_mem_nil kv)) hrec).1
      · simp at h
      · simp at h

/-- The five input bytes of the C5 witness run: the text `a`, a line
continuation (backslash and newline), the text `b`, and a final
newline. -/
def c5Input : List Nat := strBytes "a\\\nb\n"

/-- Modelled from the spec: the parse of `a\<LF>b<LF>` is a single token
line holding one regular token whose text spans the line continuation
(§4.1: the continuation is part of the logical line; the loop removes it
with `replace("\\\n", "")`). -/
def gC5 : List Nat → Option (List PLine) := fun bs =>
  if bs = c5Input then some [.tokenLine [.regularToken ['a', '\\', '\n', 'b']]] else none

theorem preprocess_line_origins_witness :
    preprocess 4 tgEmpty gC5 [] c5Input none =
      .ok (['a', 'b', '\n'], [(1, none)]) ∧
    ([((1 : Nat), (none : Option Str))]).length = countNl ['a', 'b', '\n'] := by
  constructor
  · rfl
  · exact preprocess_line_origins 4 tgEmpty gC5 [] c5Input none ['a', 'b', '\n']
      [(1, none)] (fun s t ht => absurd ht (List.not_mem_nil t))
      (by
        intro bs ls hbs l hl
        simp only [gC5] at hbs
        split at hbs
        · cases hbs
          rw [List.mem_singleton] at hl
          subst hl
          intro t ht
          rw [List.mem_singleton] at ht
          subst ht
          exact (by decide : contOk ['a', '\\', '\n', 'b'] = true)
        · cases hbs)
      (by rfl)

end Armake
